import Mathlib

/-!
Verification development for `scripts/merge_appconfig.py` (AWS AppConfig
feature-flag merger).

The script manipulates parsed JSON as Python dictionaries.  We embed JSON
values as the inductive type `Json` below; Python `dict`s become association
lists (`List (String × Json)`) preserving insertion order, as Python dicts do.
JSON numbers are modeled as integers (no property below depends on fractional
values).  Fallible Python code (`KeyError`, `AttributeError`, `TypeError`,
`sys.exit(1)`) is modeled with `Option` / `Except`.  String comparison is
modeled lexicographically on the list of characters, matching Python's
code-point comparison.
-/

namespace MergeAppConfig

inductive Json where
  | jnull
  | jbool (b : Bool)
  | jnum (n : Int)
  | jstr (s : String)
  | jarr (elems : List Json)
  | jobj (entries : List (String × Json))

abbrev PyDict := List (String × Json)

/-! ## Association-list operations mirroring Python dict primitives -/

/-- `d[k]` lookup on a Python dict (first binding wins; Python dicts have
unique keys, so on well-formed input this is exact). -/
def alGet {α : Type} (d : List (String × α)) (k : String) : Option α :=
  match d with
  | [] => none
  | (k', v) :: t => if k' = k then some v else alGet t k

/-- `d.get(k, dflt)`. -/
def alGetD {α : Type} (d : List (String × α)) (k : String) (dflt : α) : α :=
  (alGet d k).getD dflt

/-- `d[k] = v`: update the binding in place if the key exists, else append
(Python dicts keep insertion order and append new keys at the end). -/
def alSet {α : Type} (d : List (String × α)) (k : String) (v : α) :
    List (String × α) :=
  match d with
  | [] => [(k, v)]
  | (k', v') :: t => if k' = k then (k, v) :: t else (k', v') :: alSet t k v

/-- `k in d` on a Python dict. -/
def alMem {α : Type} (d : List (String × α)) (k : String) : Bool :=
  (alGet d k).isSome

/-- `list(d.keys())`. -/
def alKeys {α : Type} (d : List (String × α)) : List String :=
  d.map Prod.fst

/-- remove every binding of `k` (used by the filesystem model). -/
def alRemove {α : Type} (d : List (String × α)) (k : String) :
    List (String × α) :=
  match d with
  | [] => []
  | (k', v') :: t => if k' = k then alRemove t k else (k', v') :: alRemove t k

theorem alGet_alSet_self {α : Type} (d : List (String × α)) (k : String) (v : α) :
    alGet (alSet d k v) k = some v := by
  induction d with
  | nil => simp [alGet, alSet]
  | cons e t ih =>
    obtain ⟨k', v'⟩ := e
    by_cases h : k' = k
    · simp [alGet, alSet, h]
    · simp [alGet, alSet, h, ih]

theorem alGet_alSet_ne {α : Type} (d : List (String × α)) (k k' : String) (v : α)
    (h : k' ≠ k) : alGet (alSet d k' v) k = alGet d k := by
  induction d with
  | nil => simp [alGet, alSet, h]
  | cons e t ih =>
    obtain ⟨k'', v''⟩ := e
    by_cases h2 : k'' = k'
    · subst h2
      simp [alGet, alSet, h]
    · simp only [alSet, if_neg h2, alGet]
      by_cases h3 : k'' = k
      · simp [h3]
      · simp [h3, ih]

theorem alGet_alRemove_self {α : Type} (d : List (String × α)) (k : String) :
    alGet (alRemove d k) k = none := by
  induction d with
  | nil => rfl
  | cons e t ih =>
    obtain ⟨k', v'⟩ := e
    by_cases h : k' = k
    · simp [alRemove, h, ih]
    · simp [alRemove, alGet, h, ih]

theorem alGet_alRemove_ne {α : Type} (d : List (String × α)) (k k' : String)
    (h : k' ≠ k) : alGet (alRemove d k') k = alGet d k := by
  induction d with
  | nil => rfl
  | cons e t ih =>
    obtain ⟨k'', v''⟩ := e
    by_cases h2 : k'' = k'
    · subst h2
      have h3 : ¬ k'' = k := fun hk => h (hk ▸ rfl)
      simp [alRemove, alGet, h3, ih]
    · simp only [alRemove, if_neg h2, alGet]
      by_cases h3 : k'' = k
      · simp [h3]
      · simp [h3, ih]

theorem mem_alKeys_iff {α : Type} (d : List (String × α)) (k : String) :
    k ∈ alKeys d ↔ (alGet d k).isSome := by
  induction d with
  | nil => simp [alKeys, alGet]
  | cons e t ih =>
    obtain ⟨k', v'⟩ := e
    simp only [alKeys, List.map_cons, List.mem_cons, alGet] at ih ⊢
    by_cases h : k' = k
    · simp [h]
    · simp [h, Ne.symm h, ih]

theorem alKeys_alSet {α : Type} (d : List (String × α)) (k : String) (v : α) :
    alKeys (alSet d k v) = if k ∈ alKeys d then alKeys d else alKeys d ++ [k] := by
  induction d with
  | nil => simp [alKeys, alSet]
  | cons e t ih =>
    obtain ⟨k', v'⟩ := e
    by_cases h : k' = k
    · simp [alKeys, alSet, h]
    · simp only [alSet, if_neg h, alKeys, List.map_cons, ih]
      simp only [alKeys] at ih ⊢
      by_cases h2 : k ∈ List.map Prod.fst t
      · simp [h2, Ne.symm h, ih]
      · simp [h2, Ne.symm h, ih]

/-! ## String ordering (Python compares strings by code points) -/

def keyLeB : List Char → List Char → Bool
  | [], _ => true
  | _ :: _, [] => false
  | a :: as, b :: bs => if a < b then true else if b < a then false else keyLeB as bs

theorem keyLeB_cons_iff (a b : Char) (as bs : List Char) :
    keyLeB (a :: as) (b :: bs) = true ↔
      a < b ∨ (¬ a < b ∧ ¬ b < a ∧ keyLeB as bs = true) := by
  by_cases h1 : a < b
  · simp [keyLeB, h1]
  · by_cases h2 : b < a
    · simp [keyLeB, h1, h2]
    · simp [keyLeB, h1, h2]

theorem keyLeB_total : ∀ x y, keyLeB x y = true ∨ keyLeB y x = true
  | [], _ => Or.inl rfl
  | _ :: _, [] => Or.inr rfl
  | a :: as, b :: bs => by
    rcases lt_trichotomy a b with h | h | h
    · left; rw [keyLeB_cons_iff]; exact Or.inl h
    · subst h
      rcases keyLeB_total as bs with ih | ih
      · left; rw [keyLeB_cons_iff]; exact Or.inr ⟨lt_irrefl a, lt_irrefl a, ih⟩
      · right; rw [keyLeB_cons_iff]; exact Or.inr ⟨lt_irrefl a, lt_irrefl a, ih⟩
    · right; rw [keyLeB_cons_iff]; exact Or.inl h

theorem keyLeB_trans : ∀ x y z, keyLeB x y = true → keyLeB y z = true → keyLeB x z = true
  | [], _, _ => by intro _ _; rfl
  | _ :: _, [], _ => by intro h; exact absurd h (by simp [keyLeB])
  | _ :: _, _ :: _, [] => by intro _ h; exact absurd h (by simp [keyLeB])
  | a :: as, b :: bs, c :: cs => by
    intro h1 h2
    rw [keyLeB_cons_iff] at h1 h2 ⊢
    rcases h1 with h1 | ⟨hab1, hab2, h1⟩
    · rcases h2 with h2 | ⟨hbc1, hbc2, _⟩
      · exact Or.inl (lt_trans h1 h2)
      · have : b = c := le_antisymm (not_lt.mp hbc2) (not_lt.mp hbc1)
        exact Or.inl (this ▸ h1)
    · have hab : a = b := le_antisymm (not_lt.mp hab2) (not_lt.mp hab1)
      subst hab
      rcases h2 with h2 | ⟨hbc1, hbc2, h2⟩
      · exact Or.inl h2
      · exact Or.inr ⟨hbc1, hbc2, keyLeB_trans as bs cs h1 h2⟩

theorem keyLeB_antisymm : ∀ x y, keyLeB x y = true → keyLeB y x = true → x = y
  | [], [], _, _ => rfl
  | [], _ :: _, _, h => absurd h (by simp [keyLeB])
  | _ :: _, [], h, _ => absurd h (by simp [keyLeB])
  | a :: as, b :: bs, h1, h2 => by
    rw [keyLeB_cons_iff] at h1 h2
    rcases h1 with h1 | ⟨hab1, hab2, h1⟩
    · rcases h2 with h2 | ⟨hba1, hba2, _⟩
      · exact absurd h2 (lt_asymm h1)
      · exact absurd h1 hba2
    · have hab : a = b := le_antisymm (not_lt.mp hab2) (not_lt.mp hab1)
      subst hab
      rcases h2 with h2 | ⟨_, _, h2⟩
      · exact absurd h2 hab1
      · rw [keyLeB_antisymm as bs h1 h2]

/-- String order used when serializing with sorted keys and when sorting
string lists. -/
def strLe (a b : String) : Bool := keyLeB a.data b.data

theorem strLe_antisymm (a b : String) (h1 : strLe a b = true) (h2 : strLe b a = true) :
    a = b := by
  have h := keyLeB_antisymm a.data b.data h1 h2
  cases a; cases b
  exact congrArg String.mk h

/-! ## Python comparison on primitive JSON values

`sorted` on a primitive list compares booleans as their integer values
(`False == 0`, `True == 1`), numbers numerically and strings by code points;
comparing a string with a number raises `TypeError`.  `jclass` is only used
to make the order total on all of `Json`: `sortPrims` rejects mixed lists
before ever comparing across classes, mirroring the `TypeError`. -/

def isPrim : Json → Bool
  | .jbool _ => true
  | .jnum _ => true
  | .jstr _ => true
  | _ => false

def isStrP : Json → Bool
  | .jstr _ => true
  | _ => false

def isNumLikeP : Json → Bool
  | .jnum _ => true
  | .jbool _ => true
  | _ => false

def toIntVal : Json → Int
  | .jnum n => n
  | .jbool b => if b then 1 else 0
  | _ => 0

def strVal : Json → String
  | .jstr s => s
  | _ => ""

def jclass : Json → Nat
  | .jnum _ => 0
  | .jbool _ => 0
  | .jstr _ => 1
  | .jnull => 2
  | .jarr _ => 3
  | .jobj _ => 4

def pyLe (a b : Json) : Bool :=
  if jclass a < jclass b then true
  else if jclass b < jclass a then false
  else if jclass a = 0 then decide (toIntVal a ≤ toIntVal b)
  else if jclass a = 1 then strLe (strVal a) (strVal b)
  else true

def pyR (a b : Json) : Prop := pyLe a b = true

instance pyR.decidableRel : DecidableRel pyR := fun a b =>
  inferInstanceAs (Decidable (pyLe a b = true))

theorem pyLe_total (a b : Json) : pyLe a b = true ∨ pyLe b a = true := by
  unfold pyLe
  rcases Nat.lt_trichotomy (jclass a) (jclass b) with h | h | h
  · left; rw [if_pos h]
  · have hn : ¬ jclass a < jclass b := by omega
    have hn2 : ¬ jclass b < jclass a := by omega
    rw [if_neg hn, if_neg hn2, if_neg hn2, if_neg hn]
    by_cases h0 : jclass a = 0
    · rw [if_pos h0, if_pos (by omega : jclass b = 0)]
      rcases le_total (toIntVal a) (toIntVal b) with h2 | h2
      · exact Or.inl (decide_eq_true h2)
      · exact Or.inr (decide_eq_true h2)
    · by_cases h1 : jclass a = 1
      · rw [if_neg h0, if_pos h1, if_neg (by omega : ¬ jclass b = 0),
          if_pos (by omega : jclass b = 1)]
        exact keyLeB_total _ _
      · rw [if_neg h0, if_neg h1, if_neg (by omega : ¬ jclass b = 0),
          if_neg (by omega : ¬ jclass b = 1)]
        exact Or.inl rfl
  · right; rw [if_pos h]

theorem pyLe_le_jclass (a b : Json) (h : pyLe a b = true) : jclass a ≤ jclass b := by
  by_contra hx
  push_neg at hx
  unfold pyLe at h
  rw [if_neg (by omega), if_pos hx] at h
  exact Bool.false_ne_true h

theorem pyLe_trans (a b c : Json) (h1 : pyLe a b = true) (h2 : pyLe b c = true) :
    pyLe a c = true := by
  have hab : jclass a ≤ jclass b := pyLe_le_jclass a b h1
  have hbc : jclass b ≤ jclass c := pyLe_le_jclass b c h2
  unfold pyLe at *
  by_cases hac : jclass a < jclass c
  · rw [if_pos hac]
  · have he1 : jclass a = jclass b := by omega
    have he2 : jclass b = jclass c := by omega
    rw [if_neg hac, if_neg (by omega : ¬ jclass c < jclass a)]
    rw [if_neg (by omega : ¬ jclass a < jclass b),
      if_neg (by omega : ¬ jclass b < jclass a)] at h1
    rw [if_neg (by omega : ¬ jclass b < jclass c),
      if_neg (by omega : ¬ jclass c < jclass b)] at h2
    by_cases h0 : jclass a = 0
    · rw [if_pos h0] at h1 ⊢
      rw [if_pos (by omega : jclass b = 0)] at h2
      simp only [decide_eq_true_iff] at h1 h2 ⊢
      omega
    · by_cases hone : jclass a = 1
      · rw [if_neg h0, if_pos hone] at h1 ⊢
        rw [if_neg (by omega : ¬ jclass b = 0), if_pos (by omega : jclass b = 1)] at h2
        exact keyLeB_trans _ _ _ h1 h2
      · rw [if_neg h0, if_neg hone]

instance pyR.isTotal : IsTotal Json pyR := ⟨pyLe_total⟩

instance pyR.isTrans : IsTrans Json pyR := ⟨pyLe_trans⟩

/-- Python's `sorted` on a list whose elements are all primitive: raises
`TypeError` (modeled as `none`) when the list mixes strings with
numbers/booleans, otherwise a stable sort under `pyLe`.
`List.insertionSort` inserts earlier elements in front of later equal ones,
matching the stability of Python's sort. -/
def sortPrims (xs : List Json) : Option (List Json) :=
  if xs.any isStrP ∧ xs.any isNumLikeP then none
  else some (List.insertionSort pyR xs)

/-! ## Normalizer (`normalize_for_comparison`, merge_appconfig.py:152-170)

Mapping nodes drop metadata keys and recurse; list nodes are sorted when all
elements are primitive (Python raises `TypeError` on mixed string/number
lists, modeled as `none`), otherwise elements are normalized in order;
primitives are returned unchanged. -/

/-- `key.startswith('_')` — the script's metadata-field marker. -/
def isMetaKey (k : String) : Bool :=
  match k.data with
  | [] => false
  | c :: _ => c = '_'

mutual
def normalize : Json → Option Json
  | .jobj kvs => (normObj kvs).map .jobj
  | .jarr xs =>
    if xs.all isPrim then (sortPrims xs).map .jarr
    else (normArr xs).map .jarr
  | j => some j
def normArr : List Json → Option (List Json)
  | [] => some []
  | x :: t =>
    match normalize x, normArr t with
    | some y, some ys => some (y :: ys)
    | _, _ => none
def normObj : List (String × Json) → Option (List (String × Json))
  | [] => some []
  | (k, v) :: t =>
    if isMetaKey k then normObj t
    else
      match normalize v, normObj t with
      | some w, some ws => some ((k, w) :: ws)
      | _, _ => none
end

/-! ## Canonical serialization (`json.dumps(..., sort_keys=True)`)

`json.dumps` with `sort_keys=True` is factored as: recursively sort every
object's entries by key, then serialize structurally.  String escaping is
omitted (no property below depends on strings containing quotes). -/

def keyPairR (p q : String × Json) : Prop := strLe p.1 q.1 = true

instance keyPairR.decidableRel : DecidableRel keyPairR := fun p q =>
  inferInstanceAs (Decidable (strLe p.1 q.1 = true))

instance keyPairR.isTotal : IsTotal (String × Json) keyPairR :=
  ⟨fun p q => keyLeB_total p.1.data q.1.data⟩

instance keyPairR.isTrans : IsTrans (String × Json) keyPairR :=
  ⟨fun p q r h1 h2 => keyLeB_trans p.1.data q.1.data r.1.data h1 h2⟩

def sortKeysDeep : Json → Json
  | .jnull => .jnull
  | .jbool b => .jbool b
  | .jnum n => .jnum n
  | .jstr s => .jstr s
  | .jarr xs => .jarr (xs.attach.map (fun x => sortKeysDeep x.1))
  | .jobj kvs => .jobj (List.insertionSort keyPairR
      (kvs.attach.map (fun x => (x.1.1, sortKeysDeep x.1.2))))
decreasing_by
  · have h := List.sizeOf_lt_of_mem x.2
    simp only [Json.jarr.sizeOf_spec]
    omega
  · have h := List.sizeOf_lt_of_mem x.2
    have h2 : sizeOf x.1.2 < sizeOf x.1 := by
      obtain ⟨⟨k, v⟩, hk⟩ := x
      simp
    simp only [Json.jobj.sizeOf_spec]
    omega

mutual
def dumps : Json → String
  | .jnull => "null"
  | .jbool b => cond b "true" "false"
  | .jnum n => toString n
  | .jstr s => "\"" ++ s ++ "\""
  | .jarr xs => "[" ++ dumpsArr xs ++ "]"
  | .jobj kvs => "\x7b" ++ dumpsObj kvs ++ "\x7d"
def dumpsArr : List Json → String
  | [] => ""
  | [x] => dumps x
  | x :: y :: t => dumps x ++ ", " ++ dumpsArr (y :: t)
def dumpsObj : List (String × Json) → String
  | [] => ""
  | [(k, v)] => "\"" ++ k ++ "\": " ++ dumps v
  | (k, v) :: e :: t => "\"" ++ k ++ "\": " ++ dumps v ++ ", " ++ dumpsObj (e :: t)
end

/-- `json.dumps(j, sort_keys=True)`. -/
def dumpsCanon (j : Json) : String := dumps (sortKeysDeep j)

/-! ## EquivalenceComparator (`configs_are_functionally_equivalent`,
merge_appconfig.py:172-241)

The function builds the `{flags, values, version}` projections, normalizes
them, serializes with sorted keys, and then returns the equality **of the MD5
digests** of the two serializations (line 227-230); the direct string
comparison at line 192 only drives logging.  The digest function is a
parameter here because MD5's injectivity on the reachable serializations is
not formalizable; the source instantiates it with MD5. -/

def projNorm (config : PyDict) : Option Json :=
  match normalize (alGetD config "flags" (.jobj [])),
      normalize (alGetD config "values" (.jobj [])),
      normalize (alGetD config "version" (.jstr "")) with
  | some nf, some nv, some nver =>
    some (.jobj [("flags", nf), ("values", nv), ("version", nver)])
  | _, _, _ => none

def configs_are_functionally_equivalent (digest : String → String)
    (config1 config2 : PyDict) : Option Bool :=
  match projNorm config1, projNorm config2 with
  | some n1, some n2 => some (digest (dumpsCanon n1) == digest (dumpsCanon n2))
  | _, _ => none

/-- Modelled from the spec: "Normalize each projection, serialize
deterministically (keys in a canonical order), and compare.  Two
configurations are equivalent iff their canonical serializations are
identical." — the direct string comparison the spec designates as the source
of truth. -/
def equivalent_by_serialization (config1 config2 : PyDict) : Option Bool :=
  match projNorm config1, projNorm config2 with
  | some n1, some n2 => some (dumpsCanon n1 == dumpsCanon n2)
  | _, _ => none

/-! ## Reconciler (`create_merged_config`, merge_appconfig.py:243-357) -/

inductive MergeErr where
  | keyError (key : String)
  | typeError
  | invariantViolation (missing_values extra_values : List String)

/-- a value used where a mapping is required (`.keys()`, `.get`, `.copy()`
followed by key iteration, `in`, item assignment): non-mapping values are
modeled as a `TypeError`/`AttributeError`. -/
def asObj : Json → Except MergeErr PyDict
  | .jobj kvs => .ok kvs
  | _ => .error .typeError

/-- `d[k]` on a Python dict: `KeyError` when absent. -/
def getItem (d : PyDict) (k : String) : Except MergeErr Json :=
  match alGet d k with
  | some v => .ok v
  | none => .error (.keyError k)

/-- One iteration of the new-attribute loop (merge_appconfig.py:283-295):
condition evaluated left-to-right with Python short-circuit evaluation. -/
def addNewAttrStep (terraform_config : PyDict) (flag_name : String)
    (acc : PyDict) (attr_name : String) : Except MergeErr PyDict :=
  if ¬ alMem acc attr_name then do
    let tfValues ← asObj (← getItem terraform_config "values")
    let tfValsFlag ← asObj (alGetD tfValues flag_name (.jobj []))
    if alMem tfValsFlag attr_name then
      pure (alSet acc attr_name ((alGet tfValsFlag attr_name).getD .jnull))
    else pure acc
  else pure acc

/-- The metadata re-copy loop (merge_appconfig.py:276-279) applied to the
copied observed value set: re-assigns each metadata binding to its identical
value. -/
def metaRecopy (obsVS : PyDict) : PyDict :=
  (alKeys obsVS).foldl
    (fun acc key =>
      if isMetaKey key then alSet acc key ((alGet obsVS key).getD .jnull) else acc)
    obsVS

/-- The merged value set computed for one flag name by the loop body at
merge_appconfig.py:265-299.  The computed value depends only on the inputs,
not on the values accumulated for other flags. -/
def flagMergedValue (terraform_config : PyDict) (current_config : PyDict)
    (tfFlags : PyDict) (flag_name : String) : Except MergeErr Json := do
  -- flag_def = terraform_config["flags"].get(flag_name, {})   (line 266)
  let flag_def := alGetD tfFlags flag_name (.jobj [])
  -- `if flag_name in current_config.get("values", {}):`       (line 268)
  let curValues ← asObj (alGetD current_config "values" (.jobj []))
  if alMem curValues flag_name then do
    -- merged["values"][name] = current_config["values"][name].copy()  (271)
    -- followed by the metadata re-copy loop (276-279)
    let obsVS ← asObj ((alGet curValues flag_name).getD .jnull)
    -- `if "attributes" in flag_def:` (line 282); the subsequent `.get`
    -- requires a mapping
    let fd ← asObj flag_def
    if alMem fd "attributes" then do
      let attrs ← asObj (alGetD fd "attributes" (.jobj []))
      let final ← (alKeys attrs).foldlM
        (addNewAttrStep terraform_config flag_name) (metaRecopy obsVS)
      pure (.jobj final)
    else
      pure (.jobj (metaRecopy obsVS))
  else do
    -- merged["values"][name] =
    --   terraform_config["values"].get(name, {"enabled": "false"}).copy()  (299)
    let tfValues ← asObj (← getItem terraform_config "values")
    let vs ← asObj (alGetD tfValues flag_name (.jobj [("enabled", .jstr "false")]))
    pure (.jobj vs)

/-- The top-level metadata preservation loop (merge_appconfig.py:302-305):
copy every metadata-prefixed top-level key of the observed configuration that
is not already a key of the merged configuration. -/
def preserveTopMeta (cur merged0 : PyDict) : PyDict :=
  (alKeys cur).foldl
    (fun acc key =>
      if isMetaKey key ∧ ¬ alMem acc key then
        alSet acc key ((alGet cur key).getD .jnull)
      else acc)
    merged0

/-- The attribute-removal diagnostics loop (merge_appconfig.py:321-336): for
every flag name in both flag maps, `.keys()` of `.get(name, {}).get`
requires mappings on both sides; the computed sets are only logged. -/
def attrRemovalDiagnostics (cur tfFlags : PyDict) : Except MergeErr Unit :=
  (alKeys tfFlags).foldlM
    (fun _ flag_name => do
      let curFlags ← asObj (alGetD cur "flags" (.jobj []))
      if alMem curFlags flag_name then do
        let tfd ← asObj (alGetD tfFlags flag_name (.jobj []))
        let _ ← asObj (alGetD tfd "attributes" (.jobj []))
        let cfd ← asObj (alGetD curFlags flag_name (.jobj []))
        let _ ← asObj (alGetD cfd "attributes" (.jobj []))
        pure ()
      else pure ())
    ()

def create_merged_config (terraform_config : PyDict) (current_config : Option PyDict)
    (current_version : String) : Except MergeErr PyDict :=
  -- `if not current_config:` — None or an empty dict is falsy (lines 246-248);
  -- the desired configuration is returned as-is, with no validation
  match current_config with
  | none => .ok terraform_config
  | some cur =>
    if cur.isEmpty then .ok terraform_config
    else do
      -- merged = {"flags": terraform_config["flags"], "values": {}, "version": "1"}
      -- (lines 252-256; the version is the hard-coded string "1";
      -- `current_version` is used only in a log line, 338)
      let flagsJ ← getItem terraform_config "flags"
      -- added/removed-flag tracking (lines 259-260) calls `.keys()` on both
      -- flag maps; results are only logged
      let tfFlags ← asObj flagsJ
      let _ ← asObj (alGetD cur "flags" (.jobj []))
      -- the loop over terraform flag names (lines 265-299)
      let mergedValues ← (alKeys tfFlags).foldlM
        (fun acc flag_name => do
          let v ← flagMergedValue terraform_config cur tfFlags flag_name
          pure (alSet acc flag_name v))
        ([] : PyDict)
      -- attribute-removal diagnostics (lines 321-336): `.keys()` of
      -- `.get(name, {}).get("attributes", {})` on both sides can raise;
      -- the computed sets are only logged
      let _ ← attrRemovalDiagnostics cur tfFlags
      -- final validation (lines 341-355): a LENGTH comparison between the
      -- flag map and the value map, reporting the two set differences
      if (alKeys tfFlags).length ≠ (alKeys mergedValues).length then
        .error (.invariantViolation
          (((alKeys tfFlags).dedup).filter (fun k => ¬ k ∈ alKeys mergedValues))
          (((alKeys mergedValues).dedup).filter (fun k => ¬ k ∈ alKeys tfFlags)))
      else
        -- top-level metadata preservation (lines 302-305) applied to
        -- {"flags": ..., "values": ..., "version": "1"}
        .ok (preserveTopMeta cur
          [("flags", flagsJ), ("values", .jobj mergedValues), ("version", .jstr "1")])

/-! ## SafeWriter (`safely_write_file`, merge_appconfig.py:377-411)

The local filesystem is modeled as a mapping from paths to file contents.
On the success path the function (1) writes the serialized content to
`output_path + ".tmp"`, (2) removes the target if it exists, (3) renames the
temporary file onto the target.  Each step yields an observable intermediate
state; the directory-creation and failure-cleanup branches are not needed by
the properties below. -/

abbrev FS := List (String × String)

def fsRead (fs : FS) (p : String) : Option String := alGet fs p

def fsWrite (fs : FS) (p : String) (c : String) : FS := alSet fs p c

def fsRemove (fs : FS) (p : String) : FS := alRemove fs p

/-- `os.rename(src, dst)`: move the content at `src` to `dst` (overwriting is
irrelevant here because the script removed `dst` beforehand). -/
def fsRename (fs : FS) (src dst : String) : FS :=
  match fsRead fs src with
  | none => fs
  | some c => fsWrite (fsRemove fs src) dst c

/-- The sequence of filesystem states produced by the success path of
`safely_write_file`: initial; after the temp write (line 392-393); after the
conditional removal of the target (line 397-398); after the rename
(line 401). -/
def safely_write_file_states (fs : FS) (output_path : String) (content : String) :
    List FS :=
  let temp_path := output_path ++ ".tmp"
  let s1 := fsWrite fs temp_path content
  let s2 := if (fsRead s1 output_path).isSome then fsRemove s1 output_path else s1
  let s3 := fsRename s2 temp_path output_path
  [fs, s1, s2, s3]

/-! ## Pre-write check (`check_existing_merged_file`, merge_appconfig.py:359-375)
and the write decision in `main` (merge_appconfig.py:453-465) -/

/-- Condition of the previously persisted artifact at the output path:
absent, present but failing to read/parse/compare (the `except` branch at
line 370), or successfully parsed. -/
inductive ExistingFileState where
  | missing
  | unreadable
  | parsed (config : PyDict)

def check_existing_merged_file (digest : String → String)
    (existing : ExistingFileState) (merged_config : PyDict) : Bool :=
  match existing with
  | .missing => false
  | .unreadable => false
  | .parsed c =>
    -- an exception inside the comparison is also caught and yields False
    (configs_are_functionally_equivalent digest c merged_config).getD false

/-- `main` (lines 455-465): the file is written unless `no_changes` holds and
`--force-write` was not given. -/
def should_write (no_changes force_write : Bool) : Bool :=
  !no_changes || force_write

/-! ## `main`'s merge flow (merge_appconfig.py:413-444)

`get_current_appconfig` (lines 96-150) returns `(None, None)` both when no
configuration exists and when the AWS client raises (lines 92-94, 144-150);
`main` then branches on `--force-create` (lines 433-444). -/

inductive FetchOutcome where
  | found (config : PyDict) (version : Nat)
  | notFound
  | transportError

/-- The `(configuration, version)` pair `get_current_appconfig` hands to
`main`: every failure collapses to `(None, None)`. -/
def get_current_appconfig : FetchOutcome → Option PyDict × Option Nat
  | .found c v => (some c, some v)
  | .notFound => (none, none)
  | .transportError => (none, none)

inductive MainOutcome where
  | noObservedConfigFailure
  | merged (config : PyDict)
  | mergeFailed (e : MergeErr)

/-- Lines 431-444 of `main`: fetch, then branch on falsiness of the fetched
configuration and on `--force-create`; `current_version or "0"` supplies the
(unused) version argument. -/
def main_merge (terraform_config : PyDict) (fetch : FetchOutcome)
    (force_create : Bool) : MainOutcome :=
  let res := get_current_appconfig fetch
  let current_config := res.1
  let truthy : Bool :=
    match current_config with
    | none => false
    | some d => !d.isEmpty
  if !truthy && !force_create then .noObservedConfigFailure
  else if !truthy && force_create then .merged terraform_config
  else
    match create_merged_config terraform_config current_config
        ((res.2.map toString).getD "0") with
    | .ok m => .merged m
    | .error e => .mergeFailed e

/-! ## Lemmas about the Reconciler loops -/

theorem mem_alKeys_alSet {α : Type} (d : List (String × α)) (k k' : String) (v : α) :
    k' ∈ alKeys (alSet d k v) ↔ (k' ∈ alKeys d ∨ k' = k) := by
  rw [alKeys_alSet]
  by_cases h : k ∈ alKeys d
  · rw [if_pos h]
    constructor
    · exact Or.inl
    · rintro (h2 | h2)
      · exact h2
      · exact h2 ▸ h
  · rw [if_neg h]
    simp

theorem mergeValuesFoldM_get (tf cur tfFlags : PyDict) :
    ∀ (l : List String) (init mv : PyDict),
    l.foldlM (fun acc flag_name => do
        let v ← flagMergedValue tf cur tfFlags flag_name
        pure (alSet acc flag_name v)) init = .ok mv →
    (∀ flag, flag ∈ l →
      ∃ v, flagMergedValue tf cur tfFlags flag = .ok v ∧ alGet mv flag = some v)
    ∧ (∀ flag, flag ∉ l → alGet mv flag = alGet init flag)
  | [], init, mv => by
    intro h
    simp only [List.foldlM_nil] at h
    obtain rfl : init = mv := by
      cases h
      rfl
    refine ⟨by simp, fun flag _ => rfl⟩
  | k :: t, init, mv => by
    intro h
    simp only [List.foldlM_cons] at h
    cases hF : flagMergedValue tf cur tfFlags k with
    | error e =>
      rw [hF] at h
      exact Except.noConfusion (show (Except.error e : Except MergeErr PyDict) = .ok mv from h)
    | ok v =>
      rw [hF] at h
      have h' : t.foldlM (fun acc flag_name => do
          let v ← flagMergedValue tf cur tfFlags flag_name
          pure (alSet acc flag_name v)) (alSet init k v) = .ok mv := h
      obtain ⟨ihA, ihB⟩ := mergeValuesFoldM_get tf cur tfFlags t (alSet init k v) mv h'
      constructor
      · intro flag hmem
        rcases List.mem_cons.mp hmem with rfl | hmem
        · by_cases ht : flag ∈ t
          · exact ihA flag ht
          · exact ⟨v, hF, (ihB flag ht).trans (alGet_alSet_self init flag v)⟩
        · exact ihA flag hmem
      · intro flag hmem
        have h1 : flag ≠ k := fun hk => hmem (hk ▸ List.mem_cons_self k t)
        have h2 : flag ∉ t := fun ht => hmem (List.mem_cons_of_mem _ ht)
        exact (ihB flag h2).trans (alGet_alSet_ne init flag k v (Ne.symm h1))

theorem mergeValuesFoldM_mem_keys (tf cur tfFlags : PyDict) :
    ∀ (l : List String) (init mv : PyDict),
    l.foldlM (fun acc flag_name => do
        let v ← flagMergedValue tf cur tfFlags flag_name
        pure (alSet acc flag_name v)) init = .ok mv →
    ∀ k, k ∈ alKeys mv ↔ (k ∈ alKeys init ∨ k ∈ l)
  | [], init, mv => by
    intro h k
    simp only [List.foldlM_nil] at h
    obtain rfl : init = mv := by
      cases h
      rfl
    simp
  | k :: t, init, mv => by
    intro h k'
    simp only [List.foldlM_cons] at h
    cases hF : flagMergedValue tf cur tfFlags k with
    | error e =>
      rw [hF] at h
      exact Except.noConfusion (show (Except.error e : Except MergeErr PyDict) = .ok mv from h)
    | ok v =>
      rw [hF] at h
      have h' : t.foldlM (fun acc flag_name => do
          let v ← flagMergedValue tf cur tfFlags flag_name
          pure (alSet acc flag_name v)) (alSet init k v) = .ok mv := h
      have ih := mergeValuesFoldM_mem_keys tf cur tfFlags t (alSet init k v) mv h' k'
      rw [ih, mem_alKeys_alSet]
      constructor
      · rintro ((h2 | h2) | h2)
        · exact Or.inl h2
        · exact Or.inr (h2 ▸ List.mem_cons_self k t)
        · exact Or.inr (List.mem_cons_of_mem _ h2)
      · rintro (h2 | h2)
        · exact Or.inl (Or.inl h2)
        · rcases List.mem_cons.mp h2 with rfl | h2
          · exact Or.inl (Or.inr rfl)
          · exact Or.inr h2

theorem metaCopyFold_get (obsVS : PyDict) :
    ∀ (l : List String) (acc : PyDict),
    (∀ key, key ∈ l → (alGet obsVS key).isSome) →
    (∀ k, alGet acc k = alGet obsVS k) →
    ∀ k, alGet (l.foldl (fun acc key =>
      if isMetaKey key then alSet acc key ((alGet obsVS key).getD .jnull) else acc) acc) k
      = alGet obsVS k
  | [], acc => by
    intro _ hacc k
    exact hacc k
  | key :: t, acc => by
    intro hl hacc k
    simp only [List.foldl_cons]
    by_cases hm : isMetaKey key
    · rw [if_pos hm]
      refine metaCopyFold_get obsVS t _ (fun key2 h2 => hl key2 (List.mem_cons_of_mem _ h2)) ?_ k
      intro k2
      by_cases hk : key = k2
      · subst hk
        rw [alGet_alSet_self]
        obtain ⟨w, hw⟩ := Option.isSome_iff_exists.mp (hl key (List.mem_cons_self _ _))
        rw [hw]
        rfl
      · rw [alGet_alSet_ne _ _ _ _ hk]
        exact hacc k2
    · rw [if_neg hm]
      exact metaCopyFold_get obsVS t acc
        (fun key2 h2 => hl key2 (List.mem_cons_of_mem _ h2)) hacc k

theorem exceptBind_ok_iff {ε α β : Type} (x : Except ε α) (f : α → Except ε β) (b : β) :
    (x >>= f) = .ok b ↔ ∃ a, x = .ok a ∧ f a = .ok b := by
  cases x with
  | error e => simp [Bind.bind, Except.bind]
  | ok a => simp [Bind.bind, Except.bind]

theorem exceptPure_ok_iff {ε α : Type} (a b : α) :
    (pure a : Except ε α) = .ok b ↔ a = b := by
  constructor
  · intro h
    cases h
    rfl
  · intro h
    rw [h]
    rfl

theorem asObj_ok_iff (j : Json) (d : PyDict) : asObj j = .ok d ↔ j = .jobj d := by
  cases j <;> simp [asObj]

theorem getItem_ok_iff (d : PyDict) (k : String) (v : Json) :
    getItem d k = .ok v ↔ alGet d k = some v := by
  unfold getItem
  cases h : alGet d k <;> simp

theorem addNewAttrStep_preserves (terraform_config : PyDict) (flag_name : String)
    (acc acc' : PyDict) (attr : String)
    (h : addNewAttrStep terraform_config flag_name acc attr = .ok acc') :
    ∀ k w, alGet acc k = some w → alGet acc' k = some w := by
  intro k w hk
  unfold addNewAttrStep at h
  by_cases hmem : alMem acc attr
  · rw [if_neg (by simpa using hmem), exceptPure_ok_iff] at h
    exact h ▸ hk
  · rw [if_pos (by simpa using hmem)] at h
    rw [show (do
        let tfValues ← asObj (← getItem terraform_config "values")
        let tfValsFlag ← asObj (alGetD tfValues flag_name (.jobj []))
        if alMem tfValsFlag attr then
          pure (alSet acc attr ((alGet tfValsFlag attr).getD .jnull))
        else pure acc) =
      (getItem terraform_config "values" >>= fun r => asObj r >>= fun tfValues =>
        asObj (alGetD tfValues flag_name (.jobj [])) >>= fun tfValsFlag =>
        if alMem tfValsFlag attr then
          pure (alSet acc attr ((alGet tfValsFlag attr).getD .jnull))
        else pure acc) from rfl] at h
    rw [exceptBind_ok_iff] at h
    obtain ⟨r, _, h⟩ := h
    rw [exceptBind_ok_iff] at h
    obtain ⟨tfValues, _, h⟩ := h
    rw [exceptBind_ok_iff] at h
    obtain ⟨tfValsFlag, _, h⟩ := h
    by_cases hmem2 : alMem tfValsFlag attr
    · rw [if_pos hmem2, exceptPure_ok_iff] at h
      subst h
      have hka : k ≠ attr := by
        intro hEq
        subst hEq
        simp only [alMem, hk] at hmem
        exact hmem rfl
      rw [alGet_alSet_ne _ _ _ _ (Ne.symm hka)]
      exact hk
    · rw [if_neg hmem2, exceptPure_ok_iff] at h
      exact h ▸ hk

theorem attrsFoldM_preserves (terraform_config : PyDict) (flag_name : String) :
    ∀ (l : List String) (acc final : PyDict),
    l.foldlM (addNewAttrStep terraform_config flag_name) acc = .ok final →
    ∀ k w, alGet acc k = some w → alGet final k = some w
  | [], acc, final => by
    intro h k w hk
    simp only [List.foldlM_nil] at h
    obtain rfl : acc = final := by
      cases h
      rfl
    exact hk
  | attr :: t, acc, final => by
    intro h k w hk
    simp only [List.foldlM_cons] at h
    rw [exceptBind_ok_iff] at h
    obtain ⟨acc', hstep, h⟩ := h
    exact attrsFoldM_preserves terraform_config flag_name t acc' final h k w
      (addNewAttrStep_preserves terraform_config flag_name acc acc' attr hstep k w hk)

theorem metaRecopy_get (obsVS : PyDict) (k : String) :
    alGet (metaRecopy obsVS) k = alGet obsVS k := by
  unfold metaRecopy
  refine metaCopyFold_get obsVS (alKeys obsVS) obsVS ?_ (fun _ => rfl) k
  intro key hkey
  exact (mem_alKeys_iff obsVS key).mp hkey

theorem preserveTopMeta_get (cur : PyDict) :
    ∀ (l : List String) (d : PyDict) (k : String), (alGet d k).isSome →
    alGet (l.foldl (fun acc key =>
      if isMetaKey key ∧ ¬ alMem acc key then
        alSet acc key ((alGet cur key).getD .jnull)
      else acc) d) k = alGet d k
  | [], d, k => fun _ => rfl
  | key :: t, d, k => by
    intro hk
    simp only [List.foldl_cons]
    by_cases hc : isMetaKey key ∧ ¬ alMem d key
    · rw [if_pos hc]
      have hne : key ≠ k := by
        intro hEq
        subst hEq
        rw [alMem, Option.isSome_iff_exists] at hc
        obtain ⟨w, hw⟩ := Option.isSome_iff_exists.mp hk
        exact hc.2 ⟨w, hw⟩
      rw [preserveTopMeta_get cur t _ k (by rw [alGet_alSet_ne _ _ _ _ hne]; exact hk)]
      rw [alGet_alSet_ne _ _ _ _ hne]
    · rw [if_neg hc]
      exact preserveTopMeta_get cur t d k hk

/-- Success-shape inversion for `create_merged_config` when an observed
configuration is present and non-empty. -/
theorem create_merged_config_ok (terraform_config cur : PyDict) (ver : String)
    (m : PyDict) (hne : cur ≠ [])
    (h : create_merged_config terraform_config (some cur) ver = .ok m) :
    ∃ flagsJ tfFlags mergedValues,
      alGet terraform_config "flags" = some flagsJ ∧
      flagsJ = Json.jobj tfFlags ∧
      (alKeys tfFlags).foldlM
        (fun acc flag_name => do
          let v ← flagMergedValue terraform_config cur tfFlags flag_name
          pure (alSet acc flag_name v)) ([] : PyDict) = .ok mergedValues ∧
      (alKeys tfFlags).length = (alKeys mergedValues).length ∧
      m = preserveTopMeta cur
        [("flags", flagsJ), ("values", .jobj mergedValues), ("version", .jstr "1")] := by
  rw [show create_merged_config terraform_config (some cur) ver =
    (if List.isEmpty cur then Except.ok terraform_config
     else
      getItem terraform_config "flags" >>= fun flagsJ =>
      asObj flagsJ >>= fun tfFlags =>
      asObj (alGetD cur "flags" (.jobj [])) >>= fun _ =>
      ((alKeys tfFlags).foldlM
        (fun acc flag_name => do
          let v ← flagMergedValue terraform_config cur tfFlags flag_name
          pure (alSet acc flag_name v))
        ([] : PyDict)) >>= fun mergedValues =>
      attrRemovalDiagnostics cur tfFlags >>= fun _ =>
      if (alKeys tfFlags).length ≠ (alKeys mergedValues).length then
        Except.error (.invariantViolation
          (((alKeys tfFlags).dedup).filter (fun k => ¬ k ∈ alKeys mergedValues))
          (((alKeys mergedValues).dedup).filter (fun k => ¬ k ∈ alKeys tfFlags)))
      else
        Except.ok (preserveTopMeta cur
          [("flags", flagsJ), ("values", .jobj mergedValues), ("version", .jstr "1")]))
    from rfl] at h
  rw [if_neg (by simpa using hne)] at h
  rw [exceptBind_ok_iff] at h
  obtain ⟨flagsJ, hfl, h⟩ := h
  rw [exceptBind_ok_iff] at h
  obtain ⟨tfFlags, hobj, h⟩ := h
  rw [exceptBind_ok_iff] at h
  obtain ⟨curFlags, _, h⟩ := h
  rw [exceptBind_ok_iff] at h
  obtain ⟨mergedValues, hfold, h⟩ := h
  rw [exceptBind_ok_iff] at h
  obtain ⟨u, _, h⟩ := h
  by_cases hlen : (alKeys tfFlags).length ≠ (alKeys mergedValues).length
  · rw [if_pos hlen] at h
    exact Except.noConfusion h
  · rw [if_neg hlen] at h
    push_neg at hlen
    refine ⟨flagsJ, tfFlags, mergedValues, (getItem_ok_iff _ _ _).mp hfl,
      (asObj_ok_iff _ _).mp hobj, hfold, hlen, ?_⟩
    cases h
    rfl

theorem ne_nil_of_alGet_some {α : Type} (d : List (String × α)) (k : String) (v : α)
    (h : alGet d k = some v) : d ≠ [] := by
  intro hnil
  subst hnil
  exact Option.noConfusion h

theorem flagMergedValue_preserved (terraform_config cur tfFlags : PyDict)
    (flag : String) (curValues obsVS : PyDict) (v : Json)
    (hcv : alGet cur "values" = some (.jobj curValues))
    (hobs : alGet curValues flag = some (.jobj obsVS))
    (hv : flagMergedValue terraform_config cur tfFlags flag = .ok v) :
    ∃ mvs, v = .jobj mvs ∧ ∀ k w, alGet obsVS k = some w → alGet mvs k = some w := by
  rw [show flagMergedValue terraform_config cur tfFlags flag =
    (asObj (alGetD cur "values" (.jobj [])) >>= fun curValues => (
      if alMem curValues flag then
        asObj ((alGet curValues flag).getD .jnull) >>= fun obsVS =>
        asObj (alGetD tfFlags flag (.jobj [])) >>= fun fd =>
        (if alMem fd "attributes" then
          asObj (alGetD fd "attributes" (.jobj [])) >>= fun attrs =>
          ((alKeys attrs).foldlM (addNewAttrStep terraform_config flag)
            (metaRecopy obsVS)) >>= fun final =>
          pure (.jobj final)
        else pure (.jobj (metaRecopy obsVS)))
      else
        getItem terraform_config "values" >>= fun r =>
        asObj r >>= fun tfValues =>
        asObj (alGetD tfValues flag (.jobj [("enabled", .jstr "false")])) >>= fun vs =>
        pure (.jobj vs))) from rfl] at hv
  have hd : alGetD cur "values" (.jobj []) = .jobj curValues := by
    simp [alGetD, hcv]
  rw [hd] at hv
  rw [exceptBind_ok_iff] at hv
  obtain ⟨cv, hcv2, hv⟩ := hv
  rw [asObj_ok_iff] at hcv2
  obtain rfl : curValues = cv := by
    injection hcv2
  rw [if_pos (show alMem curValues flag = true by simp [alMem, hobs])] at hv
  rw [exceptBind_ok_iff] at hv
  obtain ⟨obs, hobs2, hv⟩ := hv
  rw [hobs, asObj_ok_iff] at hobs2
  obtain rfl : obsVS = obs := by
    injection (show Json.jobj obsVS = Json.jobj obs from hobs2)
  rw [exceptBind_ok_iff] at hv
  obtain ⟨fd, _, hv⟩ := hv
  by_cases hattr : alMem fd "attributes"
  · rw [if_pos hattr] at hv
    rw [exceptBind_ok_iff] at hv
    obtain ⟨attrs, _, hv⟩ := hv
    rw [exceptBind_ok_iff] at hv
    obtain ⟨final, hfold, hv⟩ := hv
    rw [exceptPure_ok_iff] at hv
    refine ⟨final, hv.symm, fun k w hw => ?_⟩
    refine attrsFoldM_preserves terraform_config flag (alKeys attrs)
      (metaRecopy obsVS) final hfold k w ?_
    rw [metaRecopy_get]
    exact hw
  · rw [if_neg hattr, exceptPure_ok_iff] at hv
    refine ⟨metaRecopy obsVS, hv.symm, fun k w hw => ?_⟩
    rw [metaRecopy_get]
    exact hw

theorem flagMergedValue_new (terraform_config cur tfFlags : PyDict)
    (flag : String) (curValues : PyDict) (v : Json)
    (hcv : alGet cur "values" = some (.jobj curValues))
    (hnone : alGet curValues flag = none)
    (hv : flagMergedValue terraform_config cur tfFlags flag = .ok v) :
    ∃ tfValues, alGet terraform_config "values" = some (.jobj tfValues) ∧
      v = alGetD tfValues flag (.jobj [("enabled", .jstr "false")]) := by
  rw [show flagMergedValue terraform_config cur tfFlags flag =
    (asObj (alGetD cur "values" (.jobj [])) >>= fun curValues => (
      if alMem curValues flag then
        asObj ((alGet curValues flag).getD .jnull) >>= fun obsVS =>
        asObj (alGetD tfFlags flag (.jobj [])) >>= fun fd =>
        (if alMem fd "attributes" then
          asObj (alGetD fd "attributes" (.jobj [])) >>= fun attrs =>
          ((alKeys attrs).foldlM (addNewAttrStep terraform_config flag)
            (metaRecopy obsVS)) >>= fun final =>
          pure (.jobj final)
        else pure (.jobj (metaRecopy obsVS)))
      else
        getItem terraform_config "values" >>= fun r =>
        asObj r >>= fun tfValues =>
        asObj (alGetD tfValues flag (.jobj [("enabled", .jstr "false")])) >>= fun vs =>
        pure (.jobj vs))) from rfl] at hv
  have hd : alGetD cur "values" (.jobj []) = .jobj curValues := by
    simp [alGetD, hcv]
  rw [hd] at hv
  rw [exceptBind_ok_iff] at hv
  obtain ⟨cv, hcv2, hv⟩ := hv
  rw [asObj_ok_iff] at hcv2
  obtain rfl : curValues = cv := by
    injection hcv2
  rw [if_neg (show ¬ alMem curValues flag = true by simp [alMem, hnone])] at hv
  rw [exceptBind_ok_iff] at hv
  obtain ⟨r, hr, hv⟩ := hv
  rw [exceptBind_ok_iff] at hv
  obtain ⟨tfValues, htv, hv⟩ := hv
  rw [exceptBind_ok_iff] at hv
  obtain ⟨vs, hvs, hv⟩ := hv
  rw [exceptPure_ok_iff] at hv
  rw [getItem_ok_iff] at hr
  rw [asObj_ok_iff] at htv hvs
  subst htv
  refine ⟨tfValues, hr, ?_⟩
  rw [← hv, hvs]

/-! ## Concrete scenario used by the witnesses -/

def tfFlagsW : PyDict :=
  [("A", .jobj [("attributes", .jobj [("color", .jobj [])])]), ("B", .jobj [])]

def tfValuesW : PyDict :=
  [("A", .jobj [("enabled", .jstr "false"), ("color", .jstr "red")]),
   ("B", .jobj [("enabled", .jstr "false")])]

def tfW : PyDict := [("flags", .jobj tfFlagsW), ("values", .jobj tfValuesW)]

def obsVSW : PyDict := [("enabled", .jstr "true"), ("_createdAt", .jstr "t0")]

def curValuesW : PyDict := [("A", .jobj obsVSW), ("C", .jobj [("enabled", .jstr "x")])]

def curW : PyDict :=
  [("flags", .jobj [("A", .jobj []), ("C", .jobj [])]),
   ("values", .jobj curValuesW),
   ("version", .jstr "5"),
   ("_owner", .jstr "ops")]

def mergedW : PyDict :=
  match create_merged_config tfW (some curW) "5" with
  | .ok m => m
  | .error _ => []

/-- merged `version` field of a reconciliation result, `none` on failure. -/
def getVersionOf (r : Except MergeErr PyDict) : Option Json :=
  match r with
  | .ok m => alGet m "version"
  | .error _ => none

/-- merged value set of one flag in a reconciliation result. -/
def getMergedValueSet (r : Except MergeErr PyDict) (flag : String) : Option Json :=
  match r with
  | .ok m =>
    match alGet m "values" with
    | some (.jobj mv) => alGet mv flag
    | _ => none
  | .error _ => none

/-! ## Claim theorems for the Reconciler -/

/-- C1 (amended): for every successful merge **with an observed configuration
present**, the key set of the merged configuration's `flags` mapping equals
the key set of its `values` mapping; the validation branch compares the two
lengths and reports the set differences.  (With no observed configuration the
desired configuration is returned unvalidated — see the counterexample.) -/
theorem merge_with_observed_key_sets_match (terraform_config cur : PyDict)
    (ver : String) (m : PyDict) (hne : cur ≠ [])
    (h : create_merged_config terraform_config (some cur) ver = .ok m) :
    ∃ tfFlags mergedValues,
      alGet m "flags" = some (.jobj tfFlags) ∧
      alGet m "values" = some (.jobj mergedValues) ∧
      ∀ k, k ∈ alKeys tfFlags ↔ k ∈ alKeys mergedValues := by
  obtain ⟨flagsJ, tfFlags, mergedValues, hfl, rfl, hfold, hlen, rfl⟩ :=
    create_merged_config_ok terraform_config cur ver m hne h
  refine ⟨tfFlags, mergedValues, ?_, ?_, ?_⟩
  · have h1 := preserveTopMeta_get cur (alKeys cur)
      [("flags", Json.jobj tfFlags), ("values", .jobj mergedValues), ("version", .jstr "1")]
      "flags" (by rfl)
    exact h1.trans rfl
  · have h1 := preserveTopMeta_get cur (alKeys cur)
      [("flags", Json.jobj tfFlags), ("values", .jobj mergedValues), ("version", .jstr "1")]
      "values" (by rfl)
    exact h1.trans rfl
  · intro k
    have h2 := mergeValuesFoldM_mem_keys terraform_config cur tfFlags
      (alKeys tfFlags) [] mergedValues hfold k
    rw [h2]
    simp [alKeys]

/-- C1 (counterexample): with no observed configuration, `create_merged_config`
returns the desired configuration unchanged and unvalidated, so a merge can
succeed although the key sets of `flags` ({"A"}) and `values` ({}) differ. -/
theorem bootstrap_merge_violates_key_symmetry :
    create_merged_config [("flags", .jobj [("A", .jobj [])]), ("values", .jobj [])]
      none "0" =
      .ok [("flags", .jobj [("A", .jobj [])]), ("values", .jobj [])] ∧
    alGet [("flags", Json.jobj [("A", Json.jobj [])]), ("values", Json.jobj [])] "flags"
      = some (.jobj [("A", .jobj [])]) ∧
    alGet [("flags", Json.jobj [("A", Json.jobj [])]), ("values", Json.jobj [])] "values"
      = some (.jobj []) ∧
    "A" ∈ alKeys [("A", (Json.jobj []))] ∧
    "A" ∉ alKeys ([] : PyDict) := by
  refine ⟨rfl, rfl, rfl, ?_, ?_⟩
  · simp [alKeys]
  · simp [alKeys]

/-- C2 (confirmed): for every flag name present in both the desired `flags`
and the observed `values`, every binding of the observed value set — metadata
and ordinary values alike — is present with an unchanged value in the merged
value set for that flag. -/
theorem merge_preserves_observed_value_sets (terraform_config cur : PyDict)
    (ver : String) (m tfFlags curValues obsVS : PyDict) (flag : String)
    (hfl : alGet terraform_config "flags" = some (.jobj tfFlags))
    (hmem : flag ∈ alKeys tfFlags)
    (hcv : alGet cur "values" = some (.jobj curValues))
    (hobs : alGet curValues flag = some (.jobj obsVS))
    (h : create_merged_config terraform_config (some cur) ver = .ok m) :
    ∃ mergedValues mvs,
      alGet m "values" = some (.jobj mergedValues) ∧
      alGet mergedValues flag = some (.jobj mvs) ∧
      ∀ k w, alGet obsVS k = some w → alGet mvs k = some w := by
  have hne : cur ≠ [] := ne_nil_of_alGet_some cur "values" _ hcv
  obtain ⟨flagsJ, tfFlags2, mergedValues, hfl2, rfl, hfold, hlen, rfl⟩ :=
    create_merged_config_ok terraform_config cur ver m hne h
  obtain rfl : tfFlags = tfFlags2 := by
    rw [hfl] at hfl2
    injection hfl2 with h2
    injection h2
  obtain ⟨hA, _⟩ := mergeValuesFoldM_get terraform_config cur tfFlags
    (alKeys tfFlags) [] mergedValues hfold
  obtain ⟨v, hv, hlook⟩ := hA flag hmem
  obtain ⟨mvs, rfl, hpres⟩ := flagMergedValue_preserved terraform_config cur tfFlags
    flag curValues obsVS v hcv hobs hv
  refine ⟨mergedValues, mvs, ?_, hlook, hpres⟩
  have h1 := preserveTopMeta_get cur (alKeys cur)
    [("flags", Json.jobj tfFlags), ("values", .jobj mergedValues), ("version", .jstr "1")]
    "values" (by rfl)
  exact h1.trans rfl

/-- C3 (amended): for every flag name present in desired `flags` but absent
from the observed `values`, the merged value set is exactly the desired value
set for that flag, defaulting to `{"enabled": "false"}` when desired provides
none.  In particular the merge synthesizes no metadata keys — but it copies
desired values verbatim, so a metadata-prefixed key supplied by the desired
configuration does appear in the merged value set (see the counterexample). -/
theorem merge_new_flag_takes_desired_values (terraform_config cur : PyDict)
    (ver : String) (m tfFlags curValues : PyDict) (flag : String)
    (hfl : alGet terraform_config "flags" = some (.jobj tfFlags))
    (hmem : flag ∈ alKeys tfFlags)
    (hcv : alGet cur "values" = some (.jobj curValues))
    (hnone : alGet curValues flag = none)
    (h : create_merged_config terraform_config (some cur) ver = .ok m) :
    ∃ mergedValues tfValues,
      alGet m "values" = some (.jobj mergedValues) ∧
      alGet terraform_config "values" = some (.jobj tfValues) ∧
      alGet mergedValues flag =
        some (alGetD tfValues flag (.jobj [("enabled", .jstr "false")])) := by
  have hne : cur ≠ [] := ne_nil_of_alGet_some cur "values" _ hcv
  obtain ⟨flagsJ, tfFlags2, mergedValues, hfl2, rfl, hfold, hlen, rfl⟩ :=
    create_merged_config_ok terraform_config cur ver m hne h
  obtain rfl : tfFlags = tfFlags2 := by
    rw [hfl] at hfl2
    injection hfl2 with h2
    injection h2
  obtain ⟨hA, _⟩ := mergeValuesFoldM_get terraform_config cur tfFlags
    (alKeys tfFlags) [] mergedValues hfold
  obtain ⟨v, hv, hlook⟩ := hA flag hmem
  obtain ⟨tfValues, htv, rfl⟩ := flagMergedValue_new terraform_config cur tfFlags
    flag curValues v hcv hnone hv
  refine ⟨mergedValues, tfValues, ?_, htv, hlook⟩
  have h1 := preserveTopMeta_get cur (alKeys cur)
    [("flags", Json.jobj tfFlags), ("values", .jobj mergedValues), ("version", .jstr "1")]
    "values" (by rfl)
  exact h1.trans rfl

/-- C3 (counterexample): a newly added flag whose desired value set contains
the metadata-prefixed key `_m` receives that key in the merged value set —
the merged value set of a new flag is not metadata-free in general. -/
theorem new_flag_copies_desired_metadata_key :
    getMergedValueSet (create_merged_config
      [("flags", .jobj [("A", .jobj []), ("B", .jobj [])]),
       ("values", .jobj [("A", .jobj [("_m", .jstr "x")]), ("B", .jobj [])])]
      (some [("flags", .jobj [("B", .jobj [])]), ("values", .jobj [("B", .jobj [])])])
      "0") "A" = some (.jobj [("_m", .jstr "x")]) ∧
    alGet ([("B", (Json.jobj []))] : PyDict) "A" = none ∧
    isMetaKey "_m" = true := by
  exact ⟨rfl, rfl, rfl⟩

/-- C4 (confirmed): with an observed configuration present, the merged `flags`
value is exactly the desired `flags` value, and any name outside the desired
flag keys — in particular every flag present only in the observed
configuration — is absent from the merged `values`. -/
theorem merge_desired_flag_set_authoritative (terraform_config cur : PyDict)
    (ver : String) (m : PyDict) (hne : cur ≠ [])
    (h : create_merged_config terraform_config (some cur) ver = .ok m) :
    ∃ tfFlags mergedValues,
      alGet terraform_config "flags" = some (.jobj tfFlags) ∧
      alGet m "flags" = some (.jobj tfFlags) ∧
      alGet m "values" = some (.jobj mergedValues) ∧
      ∀ name, name ∉ alKeys tfFlags → alGet mergedValues name = none := by
  obtain ⟨flagsJ, tfFlags, mergedValues, hfl, rfl, hfold, hlen, rfl⟩ :=
    create_merged_config_ok terraform_config cur ver m hne h
  obtain ⟨_, hB⟩ := mergeValuesFoldM_get terraform_config cur tfFlags
    (alKeys tfFlags) [] mergedValues hfold
  refine ⟨tfFlags, mergedValues, hfl, ?_, ?_, fun name hname => hB name hname⟩
  · have h1 := preserveTopMeta_get cur (alKeys cur)
      [("flags", Json.jobj tfFlags), ("values", .jobj mergedValues), ("version", .jstr "1")]
      "flags" (by rfl)
    exact h1.trans rfl
  · have h1 := preserveTopMeta_get cur (alKeys cur)
      [("flags", Json.jobj tfFlags), ("values", .jobj mergedValues), ("version", .jstr "1")]
      "values" (by rfl)
    exact h1.trans rfl

/-- C5 (amended): with an observed configuration present, the merged
configuration's version is the hard-coded string `"1"`, regardless of the
observed version; no increment policy exists (`current_version` is used only
in a log message). -/
theorem merge_version_always_string_one (terraform_config cur : PyDict)
    (ver : String) (m : PyDict) (hne : cur ≠ [])
    (h : create_merged_config terraform_config (some cur) ver = .ok m) :
    alGet m "version" = some (.jstr "1") := by
  obtain ⟨flagsJ, tfFlags, mergedValues, hfl, rfl, hfold, hlen, rfl⟩ :=
    create_merged_config_ok terraform_config cur ver m hne h
  have h1 := preserveTopMeta_get cur (alKeys cur)
    [("flags", Json.jobj tfFlags), ("values", .jobj mergedValues), ("version", .jstr "1")]
    "version" (by rfl)
  exact h1.trans rfl

/-- C5 (counterexample): merging with observed version `"5"` (both in the
observed document and as the `current_version` argument) produces version
`"1"`, not `"6"`: the version is not computed from the observed version and
the numeric-increment policy is not supported. -/
theorem merge_version_ignores_observed_version :
    getVersionOf (create_merged_config tfW (some curW) "5") = some (.jstr "1") ∧
    alGet curW "version" = some (.jstr "5") ∧
    Json.jstr "1" ≠ Json.jstr "6" := by
  refine ⟨rfl, rfl, ?_⟩
  intro h
  injection h with h2
  exact absurd h2 (by decide)

theorem merge_with_observed_key_sets_match_witness :
    curW ≠ [] ∧
    ∃ tfFlags mergedValues,
      alGet mergedW "flags" = some (.jobj tfFlags) ∧
      alGet mergedW "values" = some (.jobj mergedValues) ∧
      ∀ k, k ∈ alKeys tfFlags ↔ k ∈ alKeys mergedValues := by
  have hne : curW ≠ [] := by simp [curW]
  exact ⟨hne, merge_with_observed_key_sets_match tfW curW "5" mergedW hne rfl⟩

theorem merge_preserves_observed_value_sets_witness :
    alGet tfW "flags" = some (.jobj tfFlagsW) ∧
    "A" ∈ alKeys tfFlagsW ∧
    alGet curW "values" = some (.jobj curValuesW) ∧
    alGet curValuesW "A" = some (.jobj obsVSW) ∧
    ∃ mergedValues mvs,
      alGet mergedW "values" = some (.jobj mergedValues) ∧
      alGet mergedValues "A" = some (.jobj mvs) ∧
      ∀ k w, alGet obsVSW k = some w → alGet mvs k = some w := by
  refine ⟨rfl, ?_, rfl, rfl, ?_⟩
  · simp [alKeys, tfFlagsW]
  · exact merge_preserves_observed_value_sets tfW curW "5" mergedW tfFlagsW
      curValuesW obsVSW "A" rfl (by simp [alKeys, tfFlagsW]) rfl rfl rfl

theorem merge_new_flag_takes_desired_values_witness :
    alGet curValuesW "B" = none ∧
    ∃ mergedValues tfValues,
      alGet mergedW "values" = some (.jobj mergedValues) ∧
      alGet tfW "values" = some (.jobj tfValues) ∧
      alGet mergedValues "B" =
        some (alGetD tfValues "B" (.jobj [("enabled", .jstr "false")])) := by
  refine ⟨rfl, ?_⟩
  exact merge_new_flag_takes_desired_values tfW curW "5" mergedW tfFlagsW
    curValuesW "B" rfl (by simp [alKeys, tfFlagsW]) rfl rfl rfl

theorem merge_desired_flag_set_authoritative_witness :
    curW ≠ [] ∧
    ∃ tfFlags mergedValues,
      alGet tfW "flags" = some (.jobj tfFlags) ∧
      alGet mergedW "flags" = some (.jobj tfFlags) ∧
      alGet mergedW "values" = some (.jobj mergedValues) ∧
      ∀ name, name ∉ alKeys tfFlags → alGet mergedValues name = none := by
  have hne : curW ≠ [] := by simp [curW]
  exact ⟨hne, merge_desired_flag_set_authoritative tfW curW "5" mergedW hne rfl⟩

theorem merge_version_always_string_one_witness :
    curW ≠ [] ∧ alGet mergedW "version" = some (.jstr "1") := by
  have hne : curW ≠ [] := by simp [curW]
  exact ⟨hne, merge_version_always_string_one tfW curW "5" mergedW hne rfl⟩

/-! ## Claim theorems for the SafeWriter -/

/-- C8 (counterexample): starting from a filesystem where the target holds
`"old"`, the state reached after the temporary file is written and the target
is removed — before the rename completes — has the target **absent**: its
prior content is not preserved at every interruption point between the
temporary write and the rename. -/
theorem interrupted_write_loses_prior_content :
    (safely_write_file_states [("out", "old")] "out" "new").get? 2
      = some [("out.tmp", "new")] ∧
    fsRead [("out.tmp", "new")] "out" = none ∧
    fsRead [("out", "old")] "out" = some "old" := by
  exact ⟨rfl, rfl, rfl⟩

/-- C8 (amended): at every observable state of `safely_write_file` the target
path holds its prior content, is absent, or holds the complete new content —
never a partial write; but between the explicit `os.remove` of the target and
the `os.rename`, the target is absent, so an interruption there loses the
prior content. -/
theorem write_states_never_partial (fs : FS) (output_path content : String) :
    ∀ s ∈ safely_write_file_states fs output_path content,
      fsRead s output_path = fsRead fs output_path ∨
      fsRead s output_path = none ∨
      fsRead s output_path = some content := by
  intro s hs
  have htmp : output_path ++ ".tmp" ≠ output_path := by
    intro h
    have h2 := congrArg String.length h
    rw [String.length_append] at h2
    have h3 : String.length ".tmp" = 4 := rfl
    omega
  have hs1 : fsRead (fsWrite fs (output_path ++ ".tmp") content) output_path =
      fsRead fs output_path := by
    rw [fsRead, fsWrite, alGet_alSet_ne _ _ _ _ htmp]
    rfl
  have hs2temp : fsRead (if (fsRead (fsWrite fs (output_path ++ ".tmp") content)
        output_path).isSome = true then
        fsRemove (fsWrite fs (output_path ++ ".tmp") content) output_path
      else fsWrite fs (output_path ++ ".tmp") content) (output_path ++ ".tmp")
      = some content := by
    split
    · rw [fsRead, fsRemove, alGet_alRemove_ne _ _ _ (Ne.symm htmp)]
      exact alGet_alSet_self _ _ _
    · rw [fsRead, fsWrite, alGet_alSet_self]
  simp only [safely_write_file_states, List.mem_cons, List.not_mem_nil, or_false] at hs
  rcases hs with rfl | rfl | rfl | rfl
  · exact Or.inl rfl
  · exact Or.inl hs1
  · split
    · exact Or.inr (Or.inl (alGet_alRemove_self _ _))
    · exact Or.inl hs1
  · refine Or.inr (Or.inr ?_)
    rw [fsRename, hs2temp]
    exact alGet_alSet_self _ _ _

theorem write_states_never_partial_witness :
    [("out.tmp", "new")] ∈ safely_write_file_states [("out", "old")] "out" "new" ∧
    (fsRead [("out.tmp", "new")] "out" = fsRead [("out", "old")] "out" ∨
      fsRead [("out.tmp", "new")] "out" = none ∨
      fsRead [("out.tmp", "new")] "out" = some "new") := by
  have hmem : [("out.tmp", "new")] ∈ safely_write_file_states [("out", "old")] "out" "new" := by
    refine List.mem_cons_of_mem _ (List.mem_cons_of_mem _ (List.mem_cons_self _ _))
  exact ⟨hmem, write_states_never_partial [("out", "old")] "out" "new" _ hmem⟩

/-! ## Claim theorems for `main`'s no-observed-configuration handling -/

/-- C9 (amended): when the fetch reports no configuration and `--force-create`
is unset, the invocation fails with the no-observed-configuration outcome and
no merged configuration is produced; with `--force-create` set, the merged
configuration is the desired one unchanged.  However, a transport failure is
collapsed by `get_current_appconfig` into the same absent-configuration
outcome, so the failure is not distinct from a transport failure. -/
theorem no_observed_config_behavior (terraform_config : PyDict) :
    main_merge terraform_config .notFound false = .noObservedConfigFailure ∧
    main_merge terraform_config .notFound true = .merged terraform_config ∧
    ∀ force_create, main_merge terraform_config .transportError force_create
      = main_merge terraform_config .notFound force_create := by
  exact ⟨rfl, rfl, fun _ => rfl⟩

/-- C9 (counterexample): a transport failure produces exactly the same
no-observed-configuration failure as a genuine "not found" — the error is not
distinct from a transport failure. -/
theorem transport_error_conflated_with_absent :
    main_merge tfW .transportError false = .noObservedConfigFailure ∧
    main_merge tfW .notFound false = .noObservedConfigFailure := by
  exact ⟨rfl, rfl⟩

/-! ## Claim theorem for the pre-write check -/

/-- C10 (confirmed): when the previously persisted artifact exists but cannot
be read or parsed — or the comparison itself fails — the pre-write check
returns `false` rather than aborting, so the merged configuration is written
even without `--force-write`. -/
theorem unreadable_existing_file_gets_overwritten (digest : String → String)
    (c merged : PyDict) :
    (check_existing_merged_file digest .unreadable merged = false ∧
      should_write (check_existing_merged_file digest .unreadable merged) false = true) ∧
    (configs_are_functionally_equivalent digest c merged = none →
      check_existing_merged_file digest (.parsed c) merged = false ∧
      should_write false false = true) := by
  refine ⟨⟨rfl, rfl⟩, fun h => ⟨?_, rfl⟩⟩
  simp [check_existing_merged_file, h]

def identityDigest : String → String := fun s => s

theorem unreadable_existing_file_gets_overwritten_witness :
    (configs_are_functionally_equivalent identityDigest
      [("values", .jarr [.jnum 1, .jstr "a"])] [] = none) ∧
    ((check_existing_merged_file identityDigest .unreadable [] = false ∧
      should_write (check_existing_merged_file identityDigest .unreadable []) false
        = true) ∧
    (configs_are_functionally_equivalent identityDigest
        [("values", .jarr [.jnum 1, .jstr "a"])] [] = none →
      check_existing_merged_file identityDigest
        (.parsed [("values", .jarr [.jnum 1, .jstr "a"])]) [] = false ∧
      should_write false false = true)) := by
  have hnone : configs_are_functionally_equivalent identityDigest
      [("values", .jarr [.jnum 1, .jstr "a"])] [] = none := by
    simp +decide [configs_are_functionally_equivalent, projNorm, alGetD, alGet,
      normalize, normObj, normArr, sortPrims, isPrim, isStrP, isNumLikeP]
  exact ⟨hnone, unreadable_existing_file_gets_overwritten identityDigest
    [("values", .jarr [.jnum 1, .jstr "a"])] []⟩

/-! ## Claim theorems for the EquivalenceComparator -/

def cfgVer1 : PyDict := [("version", .jstr "1")]

def cfgVer2 : PyDict := [("version", .jstr "2")]

def constDigest : String → String := fun _ => ""

theorem comparator_digest_determines_result
    (digest : String → String) (hinj : Function.Injective digest)
    (config1 config2 : PyDict) :
    configs_are_functionally_equivalent digest config1 config2
      = equivalent_by_serialization config1 config2 := by
  have hBeq : ∀ a b : String, (digest a == digest b) = (a == b) := by
    intro a b
    by_cases h : a = b
    · rw [h]
      simp
    · have h2 : digest a ≠ digest b := fun hd => h (hinj hd)
      simp [h, h2]
  unfold configs_are_functionally_equivalent equivalent_by_serialization
  cases projNorm config1 <;> cases projNorm config2 <;> simp [hBeq]

theorem serialization_distinguishes_versions :
    equivalent_by_serialization cfgVer1 cfgVer2 = some false := by
  simp +decide [equivalent_by_serialization,
    projNorm, alGetD, alGet, normalize, normObj, normArr, sortPrims,
    isPrim, isStrP, isNumLikeP, cfgVer1, cfgVer2,
    dumpsCanon, sortKeysDeep, dumps, dumpsObj, dumpsArr,
    List.insertionSort, List.orderedInsert, keyPairR, strLe, keyLeB]

/-- C6 (amended): the comparator returns the equality of the digests of the
two canonical serializations (MD5 in the source); this coincides with the
direct canonical-serialization comparison exactly when the digest is
injective on the serializations.  The digest comparison — not the direct
string comparison, which only drives logging — determines the returned
value. -/
theorem comparator_agrees_with_serialization_for_injective_digest
    (digest : String → String) (hinj : Function.Injective digest)
    (config1 config2 : PyDict) :
    configs_are_functionally_equivalent digest config1 config2
      = equivalent_by_serialization config1 config2 :=
  comparator_digest_determines_result digest hinj config1 config2

/-- C6 (counterexample): two configurations whose canonical serializations
differ (versions "1" vs "2") are reported **equivalent** under a collapsing
digest and **different** under the identity digest: the returned value is
determined solely by the digest comparison, so the direct structural/string
comparison is not the source of truth. -/
theorem digest_is_sole_comparison :
    configs_are_functionally_equivalent constDigest cfgVer1 cfgVer2 = some true ∧
    configs_are_functionally_equivalent identityDigest cfgVer1 cfgVer2 = some false ∧
    equivalent_by_serialization cfgVer1 cfgVer2 = some false := by
  refine ⟨?_, ?_, serialization_distinguishes_versions⟩
  · simp [configs_are_functionally_equivalent,
      projNorm, alGetD, alGet, normalize, normObj, normArr, sortPrims,
      isPrim, isStrP, isNumLikeP, cfgVer1, cfgVer2, constDigest]
  · rw [comparator_digest_determines_result identityDigest (fun a b h => h)
      cfgVer1 cfgVer2]
    exact serialization_distinguishes_versions

theorem comparator_agrees_with_serialization_witness :
    Function.Injective identityDigest ∧
    configs_are_functionally_equivalent identityDigest cfgVer1 cfgVer2
      = equivalent_by_serialization cfgVer1 cfgVer2 := by
  exact ⟨fun a b h => h,
    comparator_agrees_with_serialization_for_injective_digest identityDigest
      (fun a b h => h) cfgVer1 cfgVer2⟩

/-! ## Reordering equivalence (claim C7)

`ReorderEq a b` holds when `b` is obtained from `a` by reordering the entries
of mappings (with distinct keys, as in parsed JSON) and reordering lists whose
elements are all primitive — the amended side condition being that no two
distinct elements of such a list compare equal under Python's ordering (which
identifies `False` with `0` and `True` with `1`). -/

inductive ReorderEq : Json → Json → Prop where
  | refl (j : Json) : ReorderEq j j
  | trans {a b c : Json} : ReorderEq a b → ReorderEq b c → ReorderEq a c
  | arrPerm (xs ys : List Json) :
      (∀ x ∈ xs, isPrim x = true) →
      (∀ a ∈ xs, ∀ b ∈ xs, pyLe a b = true → pyLe b a = true → a = b) →
      xs.Perm ys → ReorderEq (.jarr xs) (.jarr ys)
  | arrCongr (xs ys : List Json) :
      xs.length = ys.length →
      (∀ p ∈ xs.zip ys, ReorderEq p.1 p.2) →
      ReorderEq (.jarr xs) (.jarr ys)
  | objPerm (kvs kvs' : List (String × Json)) :
      (kvs.map Prod.fst).Nodup →
      kvs.Perm kvs' →
      ReorderEq (.jobj kvs) (.jobj kvs')
  | objCongr (kvs kvs' : List (String × Json)) :
      kvs.length = kvs'.length →
      (∀ p ∈ kvs.zip kvs', p.1.1 = p.2.1) →
      (∀ p ∈ kvs.zip kvs', ReorderEq p.1.2 p.2.2) →
      ReorderEq (.jobj kvs) (.jobj kvs')

theorem reorderEq_isPrim {a b : Json} (h : ReorderEq a b) : isPrim a = isPrim b := by
  induction h with
  | refl j => rfl
  | trans h1 h2 ih1 ih2 => exact ih1.trans ih2
  | arrPerm xs ys hp ha hperm => rfl
  | arrCongr xs ys hlen hpt ih => rfl
  | objPerm kvs kvs' hnd hperm => rfl
  | objCongr kvs kvs' hlen hk hv ih => rfl

theorem reorderEq_eq_of_prim {a b : Json} (h : ReorderEq a b)
    (hp : isPrim a = true) : a = b := by
  induction h with
  | refl j => rfl
  | trans h1 h2 ih1 ih2 =>
    have e1 := ih1 hp
    exact e1.trans (ih2 (e1 ▸ hp))
  | arrPerm xs ys _ _ _ => exact absurd hp (by simp [isPrim])
  | arrCongr xs ys _ _ _ => exact absurd hp (by simp [isPrim])
  | objPerm kvs kvs' _ _ => exact absurd hp (by simp [isPrim])
  | objCongr kvs kvs' _ _ _ _ => exact absurd hp (by simp [isPrim])

theorem eq_of_perm_of_sorted_anti {α : Type} {r : α → α → Prop} :
    ∀ {l₁ l₂ : List α}, l₁.Perm l₂ → l₁.Sorted r → l₂.Sorted r →
    (∀ a ∈ l₁, ∀ b ∈ l₁, r a b → r b a → a = b) → l₁ = l₂
  | [], l₂ => by
    intro hp _ _ _
    exact hp.nil_eq
  | a :: t₁, [] => by
    intro hp _ _ _
    exact absurd hp.symm.nil_eq (by simp)
  | a :: t₁, b :: t₂ => by
    intro hp hs₁ hs₂ hanti
    have hab : a = b := by
      by_cases h : a = b
      · exact h
      · have hbmem : b ∈ a :: t₁ := hp.mem_iff.mpr (List.mem_cons_self b t₂)
        have hamem : a ∈ b :: t₂ := hp.mem_iff.mp (List.mem_cons_self a t₁)
        have hb : b ∈ t₁ := by
          rcases List.mem_cons.mp hbmem with h2 | h2
          · exact absurd h2.symm h
          · exact h2
        have ha : a ∈ t₂ := by
          rcases List.mem_cons.mp hamem with h2 | h2
          · exact absurd h2 h
          · exact h2
        have hr1 : r a b := (List.sorted_cons.mp hs₁).1 b hb
        have hr2 : r b a := (List.sorted_cons.mp hs₂).1 a ha
        exact hanti a (List.mem_cons_self a t₁) b hbmem hr1 hr2
    subst hab
    have hp' : t₁.Perm t₂ := hp.cons_inv
    have ht : t₁ = t₂ := eq_of_perm_of_sorted_anti hp'
      (List.sorted_cons.mp hs₁).2 (List.sorted_cons.mp hs₂).2
      (fun x hx y hy hr hr2 =>
        hanti x (List.mem_cons_of_mem _ hx) y (List.mem_cons_of_mem _ hy) hr hr2)
    rw [ht]

theorem perm_any_eq {α : Type} (l l' : List α) (h : l.Perm l') (f : α → Bool) :
    l.any f = l'.any f := by
  cases hA : l.any f with
  | true =>
    rw [List.any_eq_true] at hA
    obtain ⟨x, hm, hf⟩ := hA
    symm
    rw [List.any_eq_true]
    exact ⟨x, h.mem_iff.mp hm, hf⟩
  | false =>
    cases hB : l'.any f with
    | false => rfl
    | true =>
      rw [List.any_eq_true] at hB
      obtain ⟨x, hm, hf⟩ := hB
      have : l.any f = true := List.any_eq_true.mpr ⟨x, h.mem_iff.mpr hm, hf⟩
      rw [hA] at this
      exact Bool.noConfusion this

theorem sortPrims_perm_eq (xs ys : List Json) (hperm : xs.Perm ys)
    (hanti : ∀ a ∈ xs, ∀ b ∈ xs, pyLe a b = true → pyLe b a = true → a = b) :
    sortPrims xs = sortPrims ys := by
  unfold sortPrims
  rw [perm_any_eq xs ys hperm isStrP, perm_any_eq xs ys hperm isNumLikeP]
  split
  · rfl
  · refine congrArg some (eq_of_perm_of_sorted_anti (r := pyR) ?_ ?_ ?_ ?_)
    · exact ((List.perm_insertionSort pyR xs).trans hperm).trans
        (List.perm_insertionSort pyR ys).symm
    · exact List.sorted_insertionSort pyR xs
    · exact List.sorted_insertionSort pyR ys
    · intro a ha b hb hr1 hr2
      exact hanti a ((List.mem_insertionSort pyR).mp ha)
        b ((List.mem_insertionSort pyR).mp hb) hr1 hr2

theorem eq_of_mem_nodup_keys {α : Type} :
    ∀ (l : List (String × α)), (l.map Prod.fst).Nodup →
    ∀ p q, p ∈ l → q ∈ l → p.1 = q.1 → p = q
  | [] => by
    intro _ p q hp _ _
    exact absurd hp (List.not_mem_nil p)
  | e :: t => by
    intro hnd p q hp hq hk
    simp only [List.map_cons, List.nodup_cons] at hnd
    rcases List.mem_cons.mp hp with rfl | hp2
    · rcases List.mem_cons.mp hq with rfl | hq2
      · rfl
      · exact absurd (hk ▸ List.mem_map_of_mem Prod.fst hq2) hnd.1
    · rcases List.mem_cons.mp hq with rfl | hq2
      · exact absurd (hk ▸ List.mem_map_of_mem Prod.fst hp2) hnd.1
      · exact eq_of_mem_nodup_keys t hnd.2 p q hp2 hq2 hk

theorem normObj_keys_sublist :
    ∀ (kvs l : List (String × Json)), normObj kvs = some l →
    (l.map Prod.fst).Sublist (kvs.map Prod.fst)
  | [], l => by
    intro h
    obtain rfl : ([] : List (String × Json)) = l := by
      injection h
    exact List.Sublist.refl _
  | (k, v) :: t, l => by
    intro h
    rw [show normObj ((k, v) :: t) =
      (if isMetaKey k then normObj t
       else
        match normalize v, normObj t with
        | some w, some ws => some ((k, w) :: ws)
        | _, _ => none) from by rw [normObj]] at h
    by_cases hm : isMetaKey k
    · rw [if_pos hm] at h
      exact (normObj_keys_sublist t l h).trans (List.sublist_cons_self _ _)
    · rw [if_neg hm] at h
      cases hv : normalize v with
      | none =>
        rw [hv] at h
        exact Option.noConfusion h
      | some w =>
        rw [hv] at h
        cases ht : normObj t with
        | none =>
          rw [ht] at h
          exact Option.noConfusion h
        | some ws =>
          rw [ht] at h
          obtain rfl : (k, w) :: ws = l := by
            injection h
          exact List.Sublist.cons₂ _ (normObj_keys_sublist t ws ht)

def optPerm {α : Type} : Option (List α) → Option (List α) → Prop
  | none, none => True
  | some l, some l' => l.Perm l'
  | _, _ => False

theorem optPerm_refl {α : Type} (o : Option (List α)) : optPerm o o := by
  cases o with
  | none => trivial
  | some l => exact List.Perm.refl l

theorem optPerm_trans {α : Type} {a b c : Option (List α)}
    (h1 : optPerm a b) (h2 : optPerm b c) : optPerm a c := by
  cases a <;> cases b <;> cases c <;> simp [optPerm] at * <;> exact h1.trans h2

theorem normObj_cons (k : String) (v : Json) (t : List (String × Json)) :
    normObj ((k, v) :: t) =
      (if isMetaKey k then normObj t
       else
        match normalize v, normObj t with
        | some w, some ws => some ((k, w) :: ws)
        | _, _ => none) := by
  rw [normObj]

theorem normObj_perm : ∀ {kvs kvs' : List (String × Json)}, kvs.Perm kvs' →
    optPerm (normObj kvs) (normObj kvs') := by
  intro kvs kvs' h
  induction h with
  | nil => exact optPerm_refl _
  | cons e h ih =>
    obtain ⟨k, v⟩ := e
    rename_i l₁ l₂
    rw [normObj_cons, normObj_cons]
    by_cases hm : isMetaKey k
    · rw [if_pos hm, if_pos hm]
      exact ih
    · rw [if_neg hm, if_neg hm]
      cases hv : normalize v with
      | none =>
        revert ih
        cases h1 : normObj l₁ <;> cases h2 : normObj l₂ <;> intro ih <;> trivial
      | some w =>
        revert ih
        cases h1 : normObj l₁ <;> cases h2 : normObj l₂ <;> intro ih
        · trivial
        · exact absurd ih (by simp [optPerm])
        · exact absurd ih (by simp [optPerm])
        · exact List.Perm.cons _ ih
  | swap x y l =>
    obtain ⟨k1, v1⟩ := x
    obtain ⟨k2, v2⟩ := y
    rw [normObj_cons, normObj_cons]
    by_cases hm1 : isMetaKey k1 <;> by_cases hm2 : isMetaKey k2
    · rw [if_pos hm1, if_pos hm2, normObj_cons, normObj_cons, if_pos hm1, if_pos hm2]
      exact optPerm_refl _
    · rw [if_pos hm1, if_neg hm2, normObj_cons, normObj_cons, if_pos hm1, if_neg hm2]
      exact optPerm_refl _
    · rw [if_neg hm1, if_pos hm2, normObj_cons, normObj_cons, if_neg hm1, if_pos hm2]
      exact optPerm_refl _
    · rw [if_neg hm1, if_neg hm2, normObj_cons, normObj_cons, if_neg hm1, if_neg hm2]
      cases hv1 : normalize v1 <;> cases hv2 : normalize v2 <;>
        cases hl : normObj l <;> try trivial
      exact List.Perm.swap _ _ _
  | trans h1 h2 ih1 ih2 => exact optPerm_trans ih1 ih2

theorem sortKeysDeep_jarr (l : List Json) :
    sortKeysDeep (.jarr l) = .jarr (l.map sortKeysDeep) := by
  rw [sortKeysDeep]
  congr 1
  exact List.attach_map_coe l sortKeysDeep

theorem sortKeysDeep_jobj (kvs : List (String × Json)) :
    sortKeysDeep (.jobj kvs) = .jobj (List.insertionSort keyPairR
      (kvs.map (fun p => (p.1, sortKeysDeep p.2)))) := by
  rw [sortKeysDeep]
  congr 2
  exact List.attach_map_coe kvs (fun p => (p.1, sortKeysDeep p.2))

theorem zip_reorderEq_prim_eq : ∀ (xs ys : List Json), xs.length = ys.length →
    (∀ p ∈ xs.zip ys, ReorderEq p.1 p.2) → (∀ x ∈ xs, isPrim x = true) → xs = ys
  | [], ys => by
    intro hlen _ _
    exact (List.length_eq_zero.mp hlen.symm).symm
  | x :: xs, [] => by
    intro hlen _ _
    exact absurd hlen (by simp)
  | x :: xs, y :: ys => by
    intro hlen hpt hprim
    have hh : x = y := reorderEq_eq_of_prim
      (hpt (x, y) (by rw [List.zip_cons_cons]; exact List.mem_cons_self _ _))
      (hprim x (List.mem_cons_self _ _))
    have ht : xs = ys := zip_reorderEq_prim_eq xs ys (by simpa using hlen)
      (fun p hp => hpt p (by rw [List.zip_cons_cons]; exact List.mem_cons_of_mem _ hp))
      (fun z hz => hprim z (List.mem_cons_of_mem _ hz))
    rw [hh, ht]

theorem zip_reorderEq_all_isPrim : ∀ (xs ys : List Json), xs.length = ys.length →
    (∀ p ∈ xs.zip ys, ReorderEq p.1 p.2) → xs.all isPrim = ys.all isPrim
  | [], ys => by
    intro hlen _
    rw [(List.length_eq_zero.mp hlen.symm)]
  | x :: xs, [] => by
    intro hlen _
    exact absurd hlen (by simp)
  | x :: xs, y :: ys => by
    intro hlen hpt
    have hh : isPrim x = isPrim y := reorderEq_isPrim
      (hpt (x, y) (by rw [List.zip_cons_cons]; exact List.mem_cons_self _ _))
    have ht := zip_reorderEq_all_isPrim xs ys (by simpa using hlen)
      (fun p hp => hpt p (by rw [List.zip_cons_cons]; exact List.mem_cons_of_mem _ hp))
    simp only [List.all_cons, hh, ht]

theorem normArr_cons (x : Json) (t : List Json) :
    normArr (x :: t) =
      (match normalize x, normArr t with
       | some y, some ys => some (y :: ys)
       | _, _ => none) := by
  rw [normArr]

theorem normArrCanon_congr : ∀ (xs ys : List Json), xs.length = ys.length →
    (∀ p ∈ xs.zip ys,
      (normalize p.1).map sortKeysDeep = (normalize p.2).map sortKeysDeep) →
    (normArr xs).map (List.map sortKeysDeep)
      = (normArr ys).map (List.map sortKeysDeep)
  | [], ys => by
    intro hlen _
    rw [(List.length_eq_zero.mp hlen.symm)]
  | x :: xs, [] => by
    intro hlen _
    exact absurd hlen (by simp)
  | x :: xs, y :: ys => by
    intro hlen hpt
    have hh : (normalize x).map sortKeysDeep = (normalize y).map sortKeysDeep :=
      hpt (x, y) (by rw [List.zip_cons_cons]; exact List.mem_cons_self _ _)
    have ht := normArrCanon_congr xs ys (by simpa using hlen)
      (fun p hp => hpt p (by rw [List.zip_cons_cons]; exact List.mem_cons_of_mem _ hp))
    rw [normArr_cons, normArr_cons]
    cases hx : normalize x with
    | none =>
      have hy : normalize y = none := by
        rw [hx] at hh
        cases hy2 : normalize y with
        | none => rfl
        | some ny =>
          rw [hy2] at hh
          exact absurd hh (by simp)
      rw [hy]
    | some nx =>
      rw [hx] at hh
      obtain ⟨ny, hy, hsk⟩ : ∃ ny, normalize y = some ny ∧
          sortKeysDeep nx = sortKeysDeep ny := by
        cases hy2 : normalize y with
        | none =>
          rw [hy2] at hh
          exact absurd hh (by simp)
        | some ny =>
          rw [hy2] at hh
          simp only [Option.map_some'] at hh
          exact ⟨ny, rfl, by injection hh⟩
      rw [hy]
      cases ha : normArr xs with
      | none =>
        have hb : normArr ys = none := by
          rw [ha] at ht
          cases hb2 : normArr ys with
          | none => rfl
          | some _ =>
            rw [hb2] at ht
            exact absurd ht (by simp)
        rw [hb]
      | some ls =>
        rw [ha] at ht
        obtain ⟨ls', hb, hmap⟩ : ∃ ls', normArr ys = some ls' ∧
            ls.map sortKeysDeep = ls'.map sortKeysDeep := by
          cases hb2 : normArr ys with
          | none =>
            rw [hb2] at ht
            exact absurd ht (by simp)
          | some ls' =>
            rw [hb2] at ht
            simp only [Option.map_some'] at ht
            exact ⟨ls', rfl, by injection ht⟩
        rw [hb]
        simp only [Option.map_some', List.map_cons, hsk, hmap]

theorem normObjCanon_congr :
    ∀ (kvs kvs' : List (String × Json)), kvs.length = kvs'.length →
    (∀ p ∈ kvs.zip kvs', p.1.1 = p.2.1) →
    (∀ p ∈ kvs.zip kvs',
      (normalize p.1.2).map sortKeysDeep = (normalize p.2.2).map sortKeysDeep) →
    (normObj kvs).map (List.map (fun p => (p.1, sortKeysDeep p.2)))
      = (normObj kvs').map (List.map (fun p => (p.1, sortKeysDeep p.2)))
  | [], kvs' => by
    intro hlen _ _
    rw [(List.length_eq_zero.mp hlen.symm)]
  | e :: kvs, [] => by
    intro hlen _ _
    exact absurd hlen (by simp)
  | e :: kvs, e' :: kvs' => by
    intro hlen hk hv
    obtain ⟨k, v⟩ := e
    obtain ⟨k', v'⟩ := e'
    have hkk : k = k' := hk ((k, v), (k', v'))
      (by rw [List.zip_cons_cons]; exact List.mem_cons_self _ _)
    have hvv : (normalize v).map sortKeysDeep = (normalize v').map sortKeysDeep :=
      hv ((k, v), (k', v'))
        (by rw [List.zip_cons_cons]; exact List.mem_cons_self _ _)
    have ht := normObjCanon_congr kvs kvs' (by simpa using hlen)
      (fun p hp => hk p (by rw [List.zip_cons_cons]; exact List.mem_cons_of_mem _ hp))
      (fun p hp => hv p (by rw [List.zip_cons_cons]; exact List.mem_cons_of_mem _ hp))
    subst hkk
    rw [normObj_cons, normObj_cons]
    by_cases hm : isMetaKey k
    · rw [if_pos hm, if_pos hm]
      exact ht
    · rw [if_neg hm, if_neg hm]
      cases hx : normalize v with
      | none =>
        have hy : normalize v' = none := by
          rw [hx] at hvv
          cases hy2 : normalize v' with
          | none => rfl
          | some _ =>
            rw [hy2] at hvv
            exact absurd hvv (by simp)
        rw [hy]
      | some nv =>
        rw [hx] at hvv
        obtain ⟨nv', hy, hsk⟩ : ∃ nv', normalize v' = some nv' ∧
            sortKeysDeep nv = sortKeysDeep nv' := by
          cases hy2 : normalize v' with
          | none =>
            rw [hy2] at hvv
            exact absurd hvv (by simp)
          | some nv' =>
            rw [hy2] at hvv
            simp only [Option.map_some'] at hvv
            exact ⟨nv', rfl, by injection hvv⟩
        rw [hy]
        cases ha : normObj kvs with
        | none =>
          have hb : normObj kvs' = none := by
            rw [ha] at ht
            cases hb2 : normObj kvs' with
            | none => rfl
            | some _ =>
              rw [hb2] at ht
              exact absurd ht (by simp)
          rw [hb]
        | some ls =>
          rw [ha] at ht
          obtain ⟨ls', hb, hmap⟩ : ∃ ls', normObj kvs' = some ls' ∧
              ls.map (fun p => (p.1, sortKeysDeep p.2))
                = ls'.map (fun p => (p.1, sortKeysDeep p.2)) := by
            cases hb2 : normObj kvs' with
            | none =>
              rw [hb2] at ht
              exact absurd ht (by simp)
            | some ls' =>
              rw [hb2] at ht
              simp only [Option.map_some'] at ht
              exact ⟨ls', rfl, by injection ht⟩
          rw [hb]
          simp only [Option.map_some', List.map_cons, hsk, hmap]

theorem normalize_jarr (xs : List Json) :
    normalize (.jarr xs) =
      (if xs.all isPrim then (sortPrims xs).map .jarr
       else (normArr xs).map .jarr) := by
  rw [normalize]

theorem normalize_jobj (kvs : List (String × Json)) :
    normalize (.jobj kvs) = (normObj kvs).map .jobj := by
  rw [normalize]

theorem reorderEq_canon {a b : Json} (h : ReorderEq a b) :
    (normalize a).map sortKeysDeep = (normalize b).map sortKeysDeep := by
  induction h with
  | refl j => rfl
  | trans h1 h2 ih1 ih2 => exact ih1.trans ih2
  | arrPerm xs ys hprim hanti hperm =>
    have hall : xs.all isPrim = true := List.all_eq_true.mpr hprim
    have hall2 : ys.all isPrim = true :=
      List.all_eq_true.mpr (fun x hx => hprim x (hperm.mem_iff.mpr hx))
    rw [normalize_jarr, normalize_jarr, if_pos hall, if_pos hall2,
      sortPrims_perm_eq xs ys hperm hanti]
  | arrCongr xs ys hlen hpt ih =>
    by_cases hall : xs.all isPrim = true
    · rw [zip_reorderEq_prim_eq xs ys hlen hpt (List.all_eq_true.mp hall)]
    · have hall2 : ¬ ys.all isPrim = true := by
        rw [← zip_reorderEq_all_isPrim xs ys hlen hpt]
        exact hall
      rw [normalize_jarr, normalize_jarr, if_neg hall, if_neg hall2]
      have hcongr := normArrCanon_congr xs ys hlen ih
      cases h1 : normArr xs with
      | none =>
        cases h2 : normArr ys with
        | none => rfl
        | some _ =>
          rw [h1, h2] at hcongr
          exact absurd hcongr (by simp)
      | some ls =>
        cases h2 : normArr ys with
        | none =>
          rw [h1, h2] at hcongr
          exact absurd hcongr (by simp)
        | some ls' =>
          rw [h1, h2] at hcongr
          simp only [Option.map_some'] at hcongr ⊢
          rw [sortKeysDeep_jarr, sortKeysDeep_jarr]
          congr 2
          injection hcongr
  | objPerm kvs kvs' hnd hperm =>
    have hop := normObj_perm hperm
    rw [normalize_jobj, normalize_jobj]
    cases h1 : normObj kvs with
    | none =>
      cases h2 : normObj kvs' with
      | none => rfl
      | some _ =>
        rw [h1, h2] at hop
        exact absurd hop (by simp [optPerm])
    | some l =>
      cases h2 : normObj kvs' with
      | none =>
        rw [h1, h2] at hop
        exact absurd hop (by simp [optPerm])
      | some l' =>
        rw [h1, h2] at hop
        have hp : l.Perm l' := hop
        have hndl : (l.map Prod.fst).Nodup :=
          List.Nodup.sublist (normObj_keys_sublist kvs l h1) hnd
        simp only [Option.map_some']
        congr 1
        rw [sortKeysDeep_jobj, sortKeysDeep_jobj]
        congr 1
        refine eq_of_perm_of_sorted_anti (r := keyPairR) ?_ ?_ ?_ ?_
        · exact ((List.perm_insertionSort keyPairR _).trans
            (hp.map (fun p => (p.1, sortKeysDeep p.2)))).trans
            (List.perm_insertionSort keyPairR _).symm
        · exact List.sorted_insertionSort keyPairR _
        · exact List.sorted_insertionSort keyPairR _
        · intro p hpmem q hqmem h1' h2'
          have hkpq : p.1 = q.1 := strLe_antisymm _ _ h1' h2'
          have hpm : p ∈ l.map (fun p => (p.1, sortKeysDeep p.2)) :=
            (List.mem_insertionSort keyPairR).mp hpmem
          have hqm : q ∈ l.map (fun p => (p.1, sortKeysDeep p.2)) :=
            (List.mem_insertionSort keyPairR).mp hqmem
          have hkeys : ((l.map (fun p => (p.1, sortKeysDeep p.2))).map Prod.fst)
              = l.map Prod.fst := by
            rw [List.map_map]
            rfl
          exact eq_of_mem_nodup_keys _ (hkeys ▸ hndl) p q hpm hqm hkpq
  | objCongr kvs kvs' hlen hk hv ih =>
    rw [normalize_jobj, normalize_jobj]
    have hcongr := normObjCanon_congr kvs kvs' hlen hk ih
    cases h1 : normObj kvs with
    | none =>
      cases h2 : normObj kvs' with
      | none => rfl
      | some _ =>
        rw [h1, h2] at hcongr
        exact absurd hcongr (by simp)
    | some l =>
      cases h2 : normObj kvs' with
      | none =>
        rw [h1, h2] at hcongr
        exact absurd hcongr (by simp)
      | some l' =>
        rw [h1, h2] at hcongr
        simp only [Option.map_some'] at hcongr ⊢
        rw [sortKeysDeep_jobj, sortKeysDeep_jobj]
        have hle : List.map (fun p => (p.1, sortKeysDeep p.2)) l
            = List.map (fun p => (p.1, sortKeysDeep p.2)) l' := by
          injection hcongr
        rw [hle]

/-- C7 (amended): `normalize` is a pure function, and reordering the entries
of any mapping (with distinct keys) or reordering a list whose elements are
all primitive yields a byte-identical canonical serialization — **provided**
no two distinct elements of the reordered list compare equal under Python's
ordering (a boolean and its numeric value, e.g. `False` and `0`, compare
equal; the stable sort then keeps their original relative order and they
serialize differently — see the counterexample).  Reordering a list with
non-primitive elements may change the normalized form. -/
theorem normalize_invariant_under_reordering {a b : Json} (h : ReorderEq a b) :
    (normalize a).map dumpsCanon = (normalize b).map dumpsCanon := by
  have h2 := reorderEq_canon h
  cases ha : normalize a with
  | none =>
    cases hb : normalize b with
    | none => rfl
    | some _ =>
      rw [ha, hb] at h2
      exact absurd h2 (by simp)
  | some na =>
    cases hb : normalize b with
    | none =>
      rw [ha, hb] at h2
      exact absurd h2 (by simp)
    | some nb =>
      rw [ha, hb] at h2
      simp only [Option.map_some'] at h2 ⊢
      unfold dumpsCanon
      congr 2
      injection h2

/-- C7 (counterexample): `[False, 0]` is a list whose elements are all
primitive, yet swapping them changes the canonical serialization: Python's
stable sort keeps `False` and `0` — which compare equal — in their original
relative order, and they serialize as `false` vs `0`. -/
theorem primitive_list_reorder_changes_serialization :
    (∀ x ∈ [Json.jbool false, Json.jnum 0], isPrim x = true) ∧
    List.Perm [Json.jbool false, Json.jnum 0] [Json.jnum 0, Json.jbool false] ∧
    (normalize (.jarr [Json.jbool false, Json.jnum 0])).map dumpsCanon
      ≠ (normalize (.jarr [Json.jnum 0, Json.jbool false])).map dumpsCanon := by
  refine ⟨?_, List.Perm.swap _ _ _, ?_⟩
  · intro x hx
    rcases List.mem_cons.mp hx with rfl | hx
    · rfl
    · rcases List.mem_cons.mp hx with rfl | hx
      · rfl
      · exact absurd hx (List.not_mem_nil x)
  · simp +decide [normalize, normArr, sortPrims, isPrim, isStrP, isNumLikeP,
      List.insertionSort, List.orderedInsert, pyR, pyLe, jclass, toIntVal,
      dumpsCanon, sortKeysDeep, dumps, dumpsArr]

theorem normalize_invariant_under_reordering_witness :
    ReorderEq (.jobj [("b", .jnum 1), ("a", .jnum 2)])
      (.jobj [("a", .jnum 2), ("b", .jnum 1)]) ∧
    (normalize (.jobj [("b", .jnum 1), ("a", .jnum 2)])).map dumpsCanon
      = (normalize (.jobj [("a", .jnum 2), ("b", .jnum 1)])).map dumpsCanon := by
  have hr : ReorderEq (.jobj [("b", .jnum 1), ("a", .jnum 2)])
      (.jobj [("a", .jnum 2), ("b", .jnum 1)]) :=
    ReorderEq.objPerm _ _ (by simp) (List.Perm.swap _ _ _)
  exact ⟨hr, normalize_invariant_under_reordering hr⟩
